import Mathlib

/-!
Shallow embedding of the asset-organizing scripts `organize_files.py` and
`rename_sprites.py`: filename category extraction, sprite-folder proper-name
extraction, and a small filesystem model for the copying and deletion stages.
-/

namespace SwfOrg

/-- `str.split('/')[-1]`: the substring after the last `'/'` (the whole string
when no `'/'` occurs). -/
def lastSegL (l : List Char) : List Char :=
  (l.reverse.takeWhile (fun c => c != '/')).reverse

/-- `os.path.basename` for POSIX paths: the substring after the last `'/'`. -/
def pyBasename (l : List Char) : List Char :=
  (l.reverse.takeWhile (fun c => c != '/')).reverse

/-- `os.path.splitext(p)[0]` for POSIX paths: strip the extension, where the
extension starts at the last dot of the base name unless only dots precede it
within the base name. -/
def splitextRoot (p : List Char) : List Char :=
  let b := pyBasename p
  let pre := p.take (p.length - b.length)
  let rb := b.reverse
  let after := rb.takeWhile (fun c => c != '.')
  if after.length = rb.length then p
  else
    let stem := (rb.drop (after.length + 1)).reverse
    if stem.all (fun c => c == '.') then p else pre ++ stem

/-- `re.match(r'([A-Za-z]+)', s)`: the leading run of ASCII letters. -/
def alphaRun (l : List Char) : List Char := l.takeWhile (fun c => c.isAlpha)

/-- `s.split('__', 1)[1]`: the substring after the first occurrence of `"__"`,
or `none` when `'__' in s` is false. -/
def afterDU : List Char → Option (List Char)
  | '_' :: '_' :: rest => some rest
  | _ :: rest => afterDU rest
  | [] => none

def kwIconArt : List Char := "IconArt".data
def kwFrame : List Char := "Frame".data
def kwDoodad : List Char := "Doodad".data
def kwWindow : List Char := "Window".data
def kwButton : List Char := "Button".data

/-- The five `(r'^_?Keyword', 'Keyword')` patterns, in source order. -/
def kwList : List (List Char) := [kwIconArt, kwFrame, kwDoodad, kwWindow, kwButton]

/-- `re.match(r'^_?<kw>', s)`: `s` starts with the keyword, optionally after a
single leading underscore. -/
def patMatch (kw s : List Char) : Bool :=
  kw.isPrefixOf s || ('_' :: kw).isPrefixOf s

/-- The `for pattern, category in patterns` loop: first matching keyword wins. -/
def patLoop (s : List Char) : Option (List Char) :=
  kwList.findSome? (fun kw => if patMatch kw s then some kw else none)

/-- The two trailing fallbacks of `extract_category`: the leading-underscore
alphabetic rule (`base_filename.startswith('_')`), then
`os.path.splitext(filename)[0]`. -/
def catTail (base fn : List Char) : List Char :=
  if base.head? = some '_' then
    (let run := alphaRun base.tail
     if run != [] then run else splitextRoot fn)
  else splitextRoot fn

/-- `extract_category` from `organize_files.py`, on character lists.  Note that
the source rebinds `filename` to its last `'/'`-segment up front, so the later
`'__' in filename` check and the final `os.path.splitext(filename)` both see
the trimmed value. -/
def extractCategoryL (fn0 : List Char) : List Char :=
  let fn := if fn0.contains '/' then lastSegL fn0 else fn0
  let base := pyBasename fn
  match patLoop base with
  | some cat => cat
  | none =>
    match afterDU fn with
    | some after =>
      (match patLoop after with
       | some cat => cat
       | none =>
         let run := alphaRun after
         if run != [] then run else catTail base fn)
    | none => catTail base fn

/-- `extract_category` on strings. -/
def extract_category (s : String) : String := ⟨extractCategoryL s.data⟩

example : extract_category "_IconArtStoreFront14.svg" = "IconArt" := by decide
example : extract_category "_FrameBendBronze01.svg" = "Frame" := by decide
example : extract_category "_DoodadMapArt05.svg" = "Doodad" := by decide
example : extract_category "_WindowSkinHeaderTalents.svg" = "Window" := by decide
example : extract_category "_ButtonFrameStandard08.svg" = "Button" := by decide
example : extract_category "DefineSprite_10__Zorblat99.svg" = "Zorblat" := by decide
example : extract_category "FrameDoodadThing.svg" = "Frame" := by decide
example : extract_category "DefineSprite_265__IconArtStoreFront14/1.svg" = "1" := by decide
example : extract_category "a/" = "" := by decide
example : extract_category "plain.svg" = "plain" := by decide

/-! ### `extract_proper_name` from `rename_sprites.py`

The two regexes are `re.search(r'a_(.+)$', s)` and
`re.search(r'DefineSprite_(\d+)_(.+)$', s)`.  In Python, `.` does not match a
newline and `$` matches at the end of the string or just before a trailing
newline, so `(.+)$` anchored at the start of a suffix `r` captures `r` itself
when `r` is nonempty and newline-free, and `r` minus its final newline when
the only newline in `r` is a trailing one.
-/

/-- The capture of `(.+)$` applied at the start of `r` (greedy, with
backtracking), or `none` when it cannot match. -/
def dollarGroup (r : List Char) : Option (List Char) :=
  if '\n' ∈ r then
    (if r.getLast? = some '\n' ∧ '\n' ∉ r.dropLast ∧ r.dropLast ≠ [] then some r.dropLast
     else none)
  else (if r = [] then none else some r)

/-- `re.search(r'a_(.+)$', s)`: scan start positions left to right; at each
occurrence of the literal `a_` try to match `(.+)$` on the rest. -/
def searchA : List Char → Option (List Char)
  | [] => none
  | c :: rest =>
    (if c = 'a' ∧ rest.head? = some '_' then
      (match dollarGroup rest.tail with
       | some g => some g
       | none => searchA rest)
     else searchA rest)

def dsLit : List Char := "DefineSprite_".data

/-- The code-point ranges of the Unicode category `Nd` (decimal digits),
Unicode 14.0 — the database behind Python's `re`, whose `\d` in a `str`
pattern matches exactly the characters of category `Nd`. -/
def ndRanges : List (Nat × Nat) :=
  [(0x30, 0x39), (0x660, 0x669), (0x6F0, 0x6F9), (0x7C0, 0x7C9), (0x966, 0x96F),
   (0x9E6, 0x9EF), (0xA66, 0xA6F), (0xAE6, 0xAEF), (0xB66, 0xB6F), (0xBE6, 0xBEF),
   (0xC66, 0xC6F), (0xCE6, 0xCEF), (0xD66, 0xD6F), (0xDE6, 0xDEF), (0xE50, 0xE59),
   (0xED0, 0xED9), (0xF20, 0xF29), (0x1040, 0x1049), (0x1090, 0x1099),
   (0x17E0, 0x17E9), (0x1810, 0x1819), (0x1946, 0x194F), (0x19D0, 0x19D9),
   (0x1A80, 0x1A89), (0x1A90, 0x1A99), (0x1B50, 0x1B59), (0x1BB0, 0x1BB9),
   (0x1C40, 0x1C49), (0x1C50, 0x1C59), (0xA620, 0xA629), (0xA8D0, 0xA8D9),
   (0xA900, 0xA909), (0xA9D0, 0xA9D9), (0xA9F0, 0xA9F9), (0xAA50, 0xAA59),
   (0xABF0, 0xABF9), (0xFF10, 0xFF19), (0x104A0, 0x104A9), (0x10D30, 0x10D39),
   (0x11066, 0x1106F), (0x110F0, 0x110F9), (0x11136, 0x1113F), (0x111D0, 0x111D9),
   (0x112F0, 0x112F9), (0x11450, 0x11459), (0x114D0, 0x114D9), (0x11650, 0x11659),
   (0x116C0, 0x116C9), (0x11730, 0x11739), (0x118E0, 0x118E9), (0x11950, 0x11959),
   (0x11C50, 0x11C59), (0x11D50, 0x11D59), (0x11DA0, 0x11DA9), (0x16A60, 0x16A69),
   (0x16AC0, 0x16AC9), (0x16B50, 0x16B59), (0x1D7CE, 0x1D7FF), (0x1E140, 0x1E149),
   (0x1E2F0, 0x1E2F9), (0x1E950, 0x1E959), (0x1FBF0, 0x1FBF9)]

/-- Python's `\d` in a `str` pattern: any Unicode decimal digit
(category `Nd`). -/
def isPyDigit (c : Char) : Bool :=
  ndRanges.any (fun r => r.1 ≤ c.toNat && c.toNat ≤ r.2)

example : isPyDigit '7' = true := by decide
example : isPyDigit '٣' = true := by decide
example : isPyDigit '²' = false := by decide
example : isPyDigit 'x' = false := by decide

/-- Attempt `DefineSprite_(\d+)_(.+)$` anchored at the start of `s`; the
greedy `\d+` must consume the whole digit run, since any shorter split leaves
a digit where the following literal `_` is required. -/
def tryDS (s : List Char) : Option (List Char) :=
  if dsLit.isPrefixOf s then
    let r1 := s.drop dsLit.length
    let d := r1.takeWhile (fun c => isPyDigit c)
    if d.isEmpty then none
    else
      match r1.drop d.length with
      | '_' :: r2 => dollarGroup r2
      | _ => none
  else none

/-- `re.search(r'DefineSprite_(\d+)_(.+)$', s)`: leftmost start position at
which the whole pattern matches. -/
def searchDS : List Char → Option (List Char)
  | [] => none
  | c :: rest =>
    (match tryDS (c :: rest) with
     | some g => some g
     | none => searchDS rest)

/-- `extract_proper_name` from `rename_sprites.py`, on character lists. -/
def extractProperNameL (folder : List Char) : List Char :=
  match searchA folder with
  | some g => g
  | none =>
    match searchDS folder with
    | some g => g
    | none => folder

/-- `extract_proper_name` on strings. -/
def extract_proper_name (s : String) : String := ⟨extractProperNameL s.data⟩

example : extract_proper_name "DefineSprite_2_a_WaistSide_ThunderGolem" = "WaistSide_ThunderGolem" := by decide
example : extract_proper_name "DefineSprite_1234_Torso_EscapedGladiator" = "Torso_EscapedGladiator" := by decide
example : extract_proper_name "NoPatternHere" = "NoPatternHere" := by decide
example : extract_proper_name "a_b\nc" = "a_b\nc" := by decide
example : extract_proper_name "DefineSprite_٣_X" = "X" := by decide

/-! ### The specification's own description of `extract_proper_name`

The claim describes the first rule as "everything after the leftmost `a_`
followed by at least one character", and the second as "if the name matches
`DefineSprite_<digits>_<rest>`, return `<rest>`"; the definitions below follow
those words (no regex newline subtleties). -/

/-- Everything after the leftmost occurrence of the literal `a_` that is
followed by at least one character, as the claim words it. -/
def afterLeftmostA : List Char → Option (List Char)
  | [] => none
  | c :: rest =>
    (if c = 'a' ∧ rest.head? = some '_' then
      (if rest.tail = [] then none else some rest.tail)
     else afterLeftmostA rest)

/-- `DefineSprite_<digits>_<rest>` anchored at the start of `s`, per the
claim's words: literal prefix, then a nonempty run of decimal digits (the
regex's `\d`, Unicode category `Nd`), `_`, and a nonempty remainder which is
returned. -/
def tryDSWords (s : List Char) : Option (List Char) :=
  if dsLit.isPrefixOf s then
    let r1 := s.drop dsLit.length
    let d := r1.takeWhile (fun c => isPyDigit c)
    if d.isEmpty then none
    else
      match r1.drop d.length with
      | '_' :: r2 => if r2 = [] then none else some r2
      | _ => none
  else none

/-- Leftmost `DefineSprite_<digits>_<rest>` match, per the claim's words. -/
def searchDSWords : List Char → Option (List Char)
  | [] => none
  | c :: rest =>
    (match tryDSWords (c :: rest) with
     | some g => some g
     | none => searchDSWords rest)

/-- `extract_proper_name` as claim C6 words it: the `a_` suffix rule
first-match-wins, else the `DefineSprite` rule, else the input unchanged. -/
def properNameWords (folder : List Char) : List Char :=
  match afterLeftmostA folder with
  | some g => g
  | none =>
    match searchDSWords folder with
    | some g => g
    | none => folder

/-! ### Python string ordering and decimal formatting -/

/-- Python string comparison (`sorted`): lexicographic by code point, a
proper prefix sorting before its extensions. -/
def lexLe : List Char → List Char → Bool
  | [], _ => true
  | _ :: _, [] => false
  | a :: as, b :: bs =>
    if a.toNat < b.toNat then true
    else if b.toNat < a.toNat then false
    else lexLe as bs

/-- The Python `≤` on strings, as a proposition. -/
def pyLe (a b : String) : Prop := lexLe a.data b.data = true

instance : DecidableRel pyLe := fun _ _ => instDecidableEqBool _ _

/-- Digit character `'0'..'9'`. -/
def decDigitChar (n : Nat) : Char := Char.ofNat (48 + n)

/-- Little-endian decimal digits of `n`; the first argument is fuel, large
enough whenever `n ≤ fuel`. -/
def decReprRev : Nat → Nat → List Char
  | _, 0 => []
  | 0, _ + 1 => []
  | fuel + 1, n + 1 => decDigitChar ((n + 1) % 10) :: decReprRev fuel ((n + 1) / 10)

/-- Python `str(n)` for a natural number. -/
def decRepr (n : Nat) : List Char :=
  if n = 0 then ['0'] else (decReprRev n n).reverse

/-- Python `f"{i:02d}"` for a nonnegative `i`: zero-pad to width two. -/
def pad2 (i : Nat) : List Char :=
  if (decRepr i).length = 1 then '0' :: decRepr i else decRepr i

example : pad2 1 = "01".data := by decide
example : pad2 10 = "10".data := by decide
example : pad2 100 = "100".data := by decide

/-- Value of a little-endian decimal digit list. -/
def digitsVal : List Char → Nat
  | [] => 0
  | c :: r => (c.toNat - 48) + 10 * digitsVal r

/-! ### Filesystem model

Paths are absolute segment lists; the root `[]` always exists.  A filesystem
holds a list of directories and an association list from file paths to
content identifiers (`shutil.copy2` copies content and metadata, so a copied
file carries the same identifier as its source).  A failing operation
surfaces the error together with the state reached so far, matching an
uncaught Python exception aborting the batch. -/

/-- An absolute filesystem path, as a list of segments. -/
abbrev FPath := List String

/-- A filesystem: directories, and files with content identifiers. -/
structure FS where
  dirs : List FPath
  files : List (FPath × Nat)
deriving DecidableEq, Repr

/-- `p` is the root or an existing directory. -/
def FS.isDirOrRoot (fs : FS) (p : FPath) : Bool := p == [] || fs.dirs.contains p

/-- `Path(p).mkdir(exist_ok=True)`: ok when `p` is already a directory,
`FileExistsError` when a file sits at `p`, `FileNotFoundError` when the
parent is missing. -/
def mkdirExistOk (fs : FS) (p : FPath) : Except String FS :=
  if fs.dirs.contains p then .ok fs
  else if fs.files.any (fun e => e.1 == p) then .error "FileExistsError"
  else if p = [] then .ok fs
  else if fs.isDirOrRoot p.dropLast then .ok ⟨p :: fs.dirs, fs.files⟩
  else .error "FileNotFoundError"

/-- Final segment of a path (its name). -/
def lastName (p : FPath) : String := p.getLastD ""

/-- `shutil.copy2(src, dst)`: when `dst` is an existing directory the copy
goes into it under the source's name (`copy2` first rebinds
`dst = os.path.join(dst, os.path.basename(src))`); then `copyfile` raises
`SameFileError` when source and destination are the same existing path,
reading a directory source raises `IsADirectoryError` and a missing source
`FileNotFoundError`, and writing onto a directory raises `IsADirectoryError`
and into a missing parent `FileNotFoundError`; otherwise the destination is
overwritten or created with the source's content (and metadata). -/
def copy2 (fs : FS) (src dst0 : FPath) : Except String FS :=
  let dst := if fs.isDirOrRoot dst0 then dst0 ++ [lastName src] else dst0
  if src = dst ∧ (fs.files.any (fun e => e.1 == src) || fs.dirs.contains src) then
    .error "SameFileError"
  else
    match fs.files.lookup src with
    | none =>
      if fs.dirs.contains src then .error "IsADirectoryError"
      else .error "FileNotFoundError"
    | some c =>
      if fs.dirs.contains dst then .error "IsADirectoryError"
      else if !fs.isDirOrRoot dst.dropLast then .error "FileNotFoundError"
      else .ok ⟨fs.dirs, (dst, c) :: fs.files.filter (fun e => e.1 != dst)⟩

/-- The regular files directly inside `d` (`iterdir` entries passing
`is_file()`). -/
def topFiles (fs : FS) (d : FPath) : List (FPath × Nat) :=
  fs.files.filter (fun e => e.1.dropLast == d && e.1 != [])

/-- Names returned by `os.listdir(d)`: all entries directly inside `d`,
directories included. -/
def pyListdir (fs : FS) (d : FPath) : List String :=
  (fs.dirs.filter (fun p => p.dropLast == d && p != [])).map lastName
    ++ (topFiles fs d).map (fun e => lastName e.1)

/-- `pathlib.Path(name).suffix`: the final dot-suffix of the name, empty when
the last dot is leading or trailing. -/
def pySuffix (name : List Char) : List Char :=
  let r := name.reverse
  let k := (r.takeWhile (fun c => c != '.')).length
  if k < r.length ∧ 0 < k ∧ k < r.length - 1 then
    '.' :: (r.takeWhile (fun c => c != '.')).reverse
  else []

example : pySuffix "a.svg".data = ".svg".data := by decide
example : pySuffix "a.b.SVG".data = ".SVG".data := by decide
example : pySuffix ".svg".data = [] := by decide
example : pySuffix "a.".data = [] := by decide

/-- `item.suffix.lower()` on an entry name. -/
def suffixLowerName (n : String) : String := ⟨(pySuffix n.data).map Char.toLower⟩

/-- `f.lower().endswith('.svg')`, the image test of `rename_sprites.py`. -/
def endsSvg (n : String) : Bool := (".svg".data).isSuffixOf (n.data.map Char.toLower)

/-! ### `organize_files` -/

/-- Category of a directory entry, via `extract_category` on its name. -/
def catOf (e : FPath × Nat) : String := extract_category (lastName e.1)

/-- The distinct categories of a file listing, in first-seen order (the key
order of the source's `defaultdict`). -/
def catKeys : List (FPath × Nat) → List String
  | [] => []
  | e :: rest => catOf e :: (catKeys rest).filter (fun k => k != catOf e)

/-- Grouping by category: keys in first-seen order, each key holding its
files in listing order — the observable content of the source's
`defaultdict(list)` accumulation loop. -/
def groupByCat (files : List (FPath × Nat)) : List (String × List (FPath × Nat)) :=
  (catKeys files).map (fun k => (k, files.filter (fun e => catOf e == k)))

/-- `file_types if file_types is not None else ['.svg']`. -/
def resolveTypes (fileTypes : Option (List String)) : List String :=
  fileTypes.getD [".svg"]

/-- The file-listing loop: immediate regular files, filtered by extension
unless the type list is empty (`not file_types or item.suffix.lower() in
file_types`). -/
def selectFiles (fs : FS) (dir : FPath) (types : List String) : List (FPath × Nat) :=
  (topFiles fs dir).filter
    (fun e => types.isEmpty || types.contains (suffixLowerName (lastName e.1)))

/-- The inner per-file loop of `organize_files`: report only under dry-run,
skip when source equals destination, otherwise `copy2`. -/
def copyFiles (out : FPath) (cat : String) (dry : Bool) :
    FS → List (FPath × Nat) → FS × Option String
  | fs, [] => (fs, none)
  | fs, e :: rest =>
    if dry then copyFiles out cat dry fs rest
    else
      let dest := out ++ [cat, lastName e.1]
      if e.1 = dest then copyFiles out cat dry fs rest
      else
        match copy2 fs e.1 dest with
        | .ok fs1 => copyFiles out cat dry fs1 rest
        | .error msg => (fs, some msg)

/-- The per-category loop of `organize_files`: create the category folder
(unless dry-run), then copy that category's files. -/
def processGroups (out : FPath) (dry : Bool) :
    FS → List (String × List (FPath × Nat)) → FS × Option String
  | fs, [] => (fs, none)
  | fs, (cat, es) :: rest =>
    match (if dry then Except.ok fs else mkdirExistOk fs (out ++ [cat])) with
    | .error msg => (fs, some msg)
    | .ok fs1 =>
      match copyFiles out cat dry fs1 es with
      | (fs2, none) => processGroups out dry fs2 rest
      | (fs2, some msg) => (fs2, some msg)

/-- Is a top-level entry of the source directory deleted by
`delete_non_foldered_files`?  Unlike the selection filter, an empty type
list here matches nothing. -/
def delCond (dir : FPath) (types : List String) (p : FPath) : Bool :=
  p.dropLast == dir && p != [] && types.contains (suffixLowerName (lastName p))

/-- `delete_non_foldered_files(directory_path, file_types)` with the type
list already resolved by the caller. -/
def delete_non_foldered_files (fs : FS) (dir : FPath) (types : List String) : FS :=
  ⟨fs.dirs, fs.files.filter (fun e => !delCond dir types e.1)⟩

/-- The body of `organize_files` after output-directory resolution: list the
source directory (an error when it is not listable), group, create category
folders and copy, then optionally delete the originals. -/
def organizeCore (out dir : FPath) (types : List String) (dry del : Bool) (fs : FS) :
    FS × Option String :=
  if fs.isDirOrRoot dir then
    match processGroups out dry fs (groupByCat (selectFiles fs dir types)) with
    | (fs1, some msg) => (fs1, some msg)
    | (fs1, none) =>
      if del && !dry then (delete_non_foldered_files fs1 dir types, none) else (fs1, none)
  else (fs, some "NotADirectoryError")

/-- `organize_files(directory_path, output_dir, file_types, dry_run,
delete_originals)`.  Note the source creates a supplied output directory
before the dry-run flag is ever consulted. -/
def organize_files (fs : FS) (dir : FPath) (output : Option FPath)
    (fileTypes : Option (List String)) (dryRun deleteOriginals : Bool) :
    FS × Option String :=
  match output with
  | none => organizeCore dir dir (resolveTypes fileTypes) dryRun deleteOriginals fs
  | some o =>
    match mkdirExistOk fs o with
    | .ok fs1 => organizeCore o dir (resolveTypes fileTypes) dryRun deleteOriginals fs1
    | .error msg => (fs, some msg)

/-! ### `rename_sprites.main` -/

/-- Python `sorted` on names (code-point lexicographic; the order is total
and antisymmetric, so any sorted rearrangement is unique). -/
def pySorted (l : List String) : List String := List.insertionSort pyLe l

/-- The copy loop of `rename_sprites.main` for one source folder, carrying
the 1-based `enumerate` index; returns the destinations written, in order. -/
def fanCopy (output folder : FPath) (proper : String) (num : Nat) :
    FS → Nat → List String → FS × List FPath × Option String
  | fs, _, [] => (fs, [], none)
  | fs, i, n :: rest =>
    let dest :=
      if num = 1 then output ++ [proper ++ ".svg"]
      else output ++ [proper, proper ++ "_" ++ (⟨pad2 i⟩ : String) ++ ".svg"]
    match copy2 fs (folder ++ [n]) dest with
    | .error msg => (fs, [], some msg)
    | .ok fs1 =>
      match fanCopy output folder proper num fs1 (i + 1) rest with
      | (fs2, outs, r) => (fs2, dest :: outs, r)

/-- The body of the per-folder loop of `rename_sprites.main`: extract the
proper name, list `.svg`-named entries, create a subfolder when there are
several, and copy each in sorted name order. -/
def processFolder (output cwd : FPath) (folderName : String) (fs : FS) :
    FS × List FPath × Option String :=
  let folder := cwd ++ [folderName]
  let proper : String := extract_proper_name folderName
  let svgs := (pyListdir fs folder).filter endsSvg
  let num := svgs.length
  match (if 1 < num then mkdirExistOk fs (output ++ [proper]) else .ok fs) with
  | .error msg => (fs, [], some msg)
  | .ok fs1 => fanCopy output folder proper num fs1 1 (pySorted svgs)

/-- The folder loop of `rename_sprites.main`. -/
def renameLoop (output cwd : FPath) : FS → List String → FS × Option String
  | fs, [] => (fs, none)
  | fs, n :: rest =>
    match processFolder output cwd n fs with
    | (fs1, _, none) => renameLoop output cwd fs1 rest
    | (fs1, _, some msg) => (fs1, some msg)

/-- `rename_sprites.main`: make the output folder, list candidate
directories of the working directory, and process each. -/
def rename_main (fs : FS) (cwd : FPath) : FS × Option String :=
  match mkdirExistOk fs (cwd ++ ["sprites_done"]) with
  | .error msg => (fs, some msg)
  | .ok fs0 =>
    let output := cwd ++ ["sprites_done"]
    let cands :=
      (((fs0.dirs.filter (fun p => p.dropLast == cwd && p != [])).map lastName).filter
        (fun n => !("sprites_done".data.isPrefixOf n.data)))
    renameLoop output cwd fs0 cands

example :
    organize_files ⟨[["d"]], [(["d", "x.svg"], 7)]⟩ ["d"] (some ["o"]) none false false =
      (⟨[["o", "x"], ["o"], ["d"]], [(["o", "x", "x.svg"], 7), (["d", "x.svg"], 7)]⟩, none) := by
  decide

example :
    rename_main ⟨[["a_X"]], [(["a_X", "1.svg"], 3), (["a_X", "2.svg"], 4)]⟩ [] =
      (⟨[["sprites_done", "X"], ["sprites_done"], ["a_X"]],
        [(["sprites_done", "X", "X_02.svg"], 4), (["sprites_done", "X", "X_01.svg"], 3),
         (["a_X", "1.svg"], 3), (["a_X", "2.svg"], 4)]⟩, none) := by
  decide

example :
    (organize_files ⟨[["d"]], [(["d", "x.svg"], 7)]⟩ ["d"] none none false true).1 =
      ⟨[["d", "x"], ["d"]], [(["d", "x", "x.svg"], 7)]⟩ := by
  decide

/-! ### Helper lemmas about the category extractor -/

theorem slash_not_mem_lastSegL (l : List Char) : '/' ∉ lastSegL l := by
  intro h
  rw [lastSegL, List.mem_reverse] at h
  have := List.mem_takeWhile_imp h
  simp at this

theorem lastSegL_eq_self {l : List Char} (h : '/' ∉ l) : lastSegL l = l := by
  rw [lastSegL, List.takeWhile_eq_self_iff.mpr, List.reverse_reverse]
  intro x hx
  simp only [bne_iff_ne, ne_eq]
  rintro rfl
  exact h (List.mem_reverse.mp hx)

theorem pyBasename_eq_self {l : List Char} (h : '/' ∉ l) : pyBasename l = l := by
  rw [pyBasename, List.takeWhile_eq_self_iff.mpr, List.reverse_reverse]
  intro x hx
  simp only [bne_iff_ne, ne_eq]
  rintro rfl
  exact h (List.mem_reverse.mp hx)

theorem fnIf_eq_lastSegL (l : List Char) :
    (if l.contains '/' then lastSegL l else l) = lastSegL l := by
  split
  · rfl
  · next h =>
    refine (lastSegL_eq_self ?_).symm
    intro hm
    exact h (by simpa [List.contains] using hm)

/-- The source's reassignment of `filename` collapses: both `filename` (after
the trim) and `base_filename` equal the last `'/'`-segment of the input. -/
theorem extractCategoryL_norm (l : List Char) :
    extractCategoryL l =
      (match patLoop (lastSegL l) with
       | some cat => cat
       | none =>
         match afterDU (lastSegL l) with
         | some after =>
           (match patLoop after with
            | some cat => cat
            | none =>
              if alphaRun after != [] then alphaRun after
              else catTail (lastSegL l) (lastSegL l))
         | none => catTail (lastSegL l) (lastSegL l)) := by
  rw [extractCategoryL]
  rw [fnIf_eq_lastSegL, pyBasename_eq_self (slash_not_mem_lastSegL l)]

theorem lastSegL_ne_nil {l : List Char} (hne : l ≠ []) (hlast : l.getLast? ≠ some '/') :
    lastSegL l ≠ [] := by
  rw [lastSegL]
  simp only [ne_eq, List.reverse_eq_nil_iff]
  cases hr : l.reverse with
  | nil => exact absurd (by simpa using congrArg List.reverse hr) hne
  | cons c t =>
    have hc : l.getLast? = some c := by rw [← List.head?_reverse, hr]; rfl
    have hcs : (c != '/') = true := by
      simp only [bne_iff_ne, ne_eq]
      rintro rfl
      exact hlast hc
    simp [List.takeWhile_cons, hcs]

theorem splitextRoot_ne_nil {l : List Char} (hs : '/' ∉ l) (hne : l ≠ []) :
    splitextRoot l ≠ [] := by
  rw [splitextRoot, pyBasename_eq_self hs]
  split
  · exact hne
  · dsimp only
    split
    · exact hne
    · next hall =>
      simp only [Nat.sub_self, List.take_zero, List.nil_append]
      intro hstem
      rw [hstem] at hall
      simp at hall

theorem patLoop_eq_some {s cat : List Char} (h : patLoop s = some cat) :
    cat ∈ kwList ∧ patMatch cat s = true := by
  obtain ⟨kw, hmem, hf⟩ := List.exists_of_findSome?_eq_some h
  by_cases hm : patMatch kw s = true
  · rw [if_pos hm] at hf
    cases hf
    exact ⟨hmem, hm⟩
  · rw [if_neg hm] at hf
    cases hf

theorem kwList_ne_nil {cat : List Char} (h : cat ∈ kwList) : cat ≠ [] := by
  simp only [kwList, List.mem_cons, List.mem_singleton] at h
  rcases h with rfl | rfl | rfl | rfl | rfl | h <;> first | decide | cases h

theorem extractCategoryL_ne_nil {l : List Char} (hne : l ≠ []) (hlast : l.getLast? ≠ some '/') :
    extractCategoryL l ≠ [] := by
  have ht_ns : '/' ∉ lastSegL l := slash_not_mem_lastSegL l
  have hsp : splitextRoot (lastSegL l) ≠ [] :=
    splitextRoot_ne_nil ht_ns (lastSegL_ne_nil hne hlast)
  have hct : catTail (lastSegL l) (lastSegL l) ≠ [] := by
    rw [catTail]
    split
    · dsimp only
      split
      · next hrun => simpa using hrun
      · exact hsp
    · exact hsp
  rw [extractCategoryL_norm]
  rcases hp : patLoop (lastSegL l) with _ | cat
  · simp only [hp]
    rcases ha : afterDU (lastSegL l) with _ | after
    · simp only [ha]
      exact hct
    · simp only [ha]
      rcases hpa : patLoop after with _ | cat2
      · simp only [hpa]
        split
        · next hrun => simpa using hrun
        · exact hct
      · simp only [hpa]
        exact kwList_ne_nil (patLoop_eq_some hpa).1
  · simp only [hp]
    exact kwList_ne_nil (patLoop_eq_some hp).1

/-! ### Dry-run lemmas -/

theorem copyFiles_dry_noop (out : FPath) (cat : String) :
    ∀ (es : List (FPath × Nat)) (fs : FS), copyFiles out cat true fs es = (fs, none)
  | [], _ => rfl
  | e :: rest, fs => by
    simp [copyFiles, copyFiles_dry_noop out cat rest fs]

theorem processGroups_dry_noop (out : FPath) :
    ∀ (gs : List (String × List (FPath × Nat))) (fs : FS),
      processGroups out true fs gs = (fs, none)
  | [], _ => rfl
  | (cat, es) :: rest, fs => by
    simp [processGroups, copyFiles_dry_noop, processGroups_dry_noop out rest fs]

theorem organizeCore_dry (out dir : FPath) (types : List String) (del : Bool) (fs : FS) :
    organizeCore out dir types true del fs = (fs, none) ∨
      organizeCore out dir types true del fs = (fs, some "NotADirectoryError") := by
  rw [organizeCore]
  split
  · rw [processGroups_dry_noop]
    simp
  · right
    rfl

theorem mkdirExistOk_ok_shape {fs fs1 : FS} {p : FPath} (h : mkdirExistOk fs p = .ok fs1) :
    fs1.files = fs.files ∧ (fs1.dirs = fs.dirs ∨ fs1.dirs = p :: fs.dirs) := by
  rw [mkdirExistOk] at h
  split_ifs at h <;> first
  | (injection h with h2; subst h2; exact ⟨rfl, Or.inl rfl⟩)
  | (injection h with h2; subst h2; exact ⟨rfl, Or.inr rfl⟩)

/-! ### Claim C1 -/

/-- C1, counterexample: a dry run with a supplied, absent output directory
still creates that directory, so the filesystem is not left identical. -/
theorem dry_run_counterexample :
    (organize_files ⟨[["d"]], []⟩ ["d"] (some ["out"]) none true false).1 ≠
      (⟨[["d"]], []⟩ : FS) ∧
    (organize_files ⟨[["d"]], []⟩ ["d"] (some ["out"]) none true false).1.dirs =
      [["out"], ["d"]] := by
  decide

/-- C1 (amended): with `dry_run` true, no file is copied or deleted and no
category folder is created; the only possible filesystem change is the
creation of the supplied output directory itself, so with no output directory
(or an already existing one) the filesystem is left unchanged. -/
theorem dry_run_frame_amended (fs : FS) (dir : FPath) (output : Option FPath)
    (ft : Option (List String)) (del : Bool) :
    (organize_files fs dir output ft true del).1.files = fs.files ∧
    ((organize_files fs dir output ft true del).1.dirs = fs.dirs ∨
      ∃ o, output = some o ∧
        (organize_files fs dir output ft true del).1.dirs = o :: fs.dirs) := by
  cases output with
  | none =>
    rcases organizeCore_dry dir dir (resolveTypes ft) del fs with h | h <;>
      simp [organize_files, h]
  | some o =>
    rcases hmk : mkdirExistOk fs o with msg | fs1
    · simp [organize_files, hmk]
    · have hshape := mkdirExistOk_ok_shape hmk
      rcases organizeCore_dry o dir (resolveTypes ft) del fs1 with h | h <;>
        simp only [organize_files, hmk, h] <;>
        exact ⟨hshape.1, hshape.2.elim Or.inl (fun h2 => Or.inr ⟨o, rfl, h2⟩)⟩

/-! ### Claim C2 -/

/-- C2 (code bug): the source trims `filename` to its last `'/'`-segment
before the `'__'` check, so a `'__'` inside a directory segment is never
seen; both docstring examples in fact evaluate to `"1"`, not to the
documented `"IconArt"` and `"Frame"`. -/
theorem double_underscore_pretrim_code_bug :
    extract_category "DefineSprite_265__IconArtStoreFront14/1.svg" = "1" ∧
    extract_category "DefineSprite_539__FrameBendBronze01/1.svg" = "1" ∧
    ("1" : String) ≠ "IconArt" ∧ ("1" : String) ≠ "Frame" := by
  decide

/-! ### Claim C3 -/

/-- C3, counterexample: the nonempty input `"a/"` (a filename ending in a
path separator) yields the empty category. -/
theorem extract_category_empty_counterexample :
    ("a/" : String) ≠ "" ∧ extract_category "a/" = "" := by
  decide

/-- C3 (amended): `extract_category` is total, and returns a nonempty string
for every nonempty input whose last path segment is nonempty (equivalently,
every nonempty input not ending in `'/'`). -/
theorem extract_category_total_amended (s : String) (hne : s ≠ "")
    (hlast : s.data.getLast? ≠ some '/') : extract_category s ≠ "" := by
  have hd : s.data ≠ [] := by
    intro h
    apply hne
    cases s
    simp_all
  intro h
  rw [extract_category] at h
  exact extractCategoryL_ne_nil hd hlast (by simpa using congrArg String.data h)

/-- Witness for the amended C3 at a concrete input. -/
theorem extract_category_total_witness : extract_category "x.svg" ≠ "" :=
  extract_category_total_amended "x.svg" (by decide) (by decide)

/-! ### Claim C10 -/

/-- C10: calling `organize_files` with `file_types = []` (rather than
`None`, which defaults to `['.svg']`) disables the extension filter: every
immediate regular file of the source directory is selected for grouping. -/
theorem empty_file_types_selects_all (fs : FS) (dir : FPath) :
    selectFiles fs dir (resolveTypes (some [])) = topFiles fs dir := by
  simp [selectFiles, resolveTypes]

/-! ### Claims C4 and C5 -/

/-- C4 (amended): for a filename whose last path segment contains `'__'`,
provided the segment does not itself match one of the five prefix patterns,
the substring after the first `'__'` matches none of them either, and that
substring starts with at least one ASCII letter, `extract_category` returns
the substring's leading ASCII-letter run; in particular the Zorblat example. -/
theorem fallback_alpha_amended :
    (∀ (s : String) (a : List Char),
      patLoop (lastSegL s.data) = none →
      afterDU (lastSegL s.data) = some a →
      patLoop a = none →
      alphaRun a ≠ [] →
      extract_category s = ⟨alphaRun a⟩) ∧
    extract_category "DefineSprite_10__Zorblat99.svg" = "Zorblat" := by
  constructor
  · intro s a h1 h2 h3 h4
    have hcat : extractCategoryL s.data = alphaRun a := by
      rw [extractCategoryL_norm]
      simp only [h1, h2, h3]
      rw [if_pos (by simpa using h4)]
    rw [extract_category, hcat]
  · decide

/-- Witness for the amended C4 at a concrete input. -/
theorem fallback_alpha_witness :
    extract_category "DefineSprite_10__Zorblat99.svg" = ⟨alphaRun "Zorblat99.svg".data⟩ :=
  fallback_alpha_amended.1 "DefineSprite_10__Zorblat99.svg" "Zorblat99.svg".data
    (by decide) (by decide) (by decide) (by decide)

theorem patMatch_decomp {kw t : List Char} (h : patMatch kw t = true) :
    (∃ r, t = kw ++ r) ∨ (∃ r, t = '_' :: (kw ++ r)) := by
  rw [patMatch, Bool.or_eq_true] at h
  rcases h with h | h
  · obtain ⟨r, hr⟩ := List.isPrefixOf_iff_prefix.mp h
    exact Or.inl ⟨r, hr.symm⟩
  · obtain ⟨r, hr⟩ := List.isPrefixOf_iff_prefix.mp h
    exact Or.inr ⟨r, by simpa using hr.symm⟩

theorem kwIconArt_eq : kwIconArt = ['I', 'c', 'o', 'n', 'A', 'r', 't'] := rfl
theorem kwFrame_eq : kwFrame = ['F', 'r', 'a', 'm', 'e'] := rfl
theorem kwDoodad_eq : kwDoodad = ['D', 'o', 'o', 'd', 'a', 'd'] := rfl
theorem kwWindow_eq : kwWindow = ['W', 'i', 'n', 'd', 'o', 'w'] := rfl
theorem kwButton_eq : kwButton = ['B', 'u', 't', 't', 'o', 'n'] := rfl

/-- C5 (amended): the five prefix patterns are tested in the order IconArt,
Frame, Doodad, Window, Button with first-match-wins, each matching an
optional leading underscore followed by the keyword at position 0 of the
base filename; for every filename whose last path segment begins (after the
optional underscore) with one of the keywords, `extract_category` returns
exactly that keyword; in particular the FrameDoodadThing tie-break. -/
theorem keyword_anchored_amended :
    (∀ (s : String) (kw : List Char), kw ∈ kwList →
      patMatch kw (lastSegL s.data) = true → extract_category s = ⟨kw⟩) ∧
    extract_category "FrameDoodadThing.svg" = "Frame" := by
  constructor
  · intro s kw hmem h
    have hloop : patLoop (lastSegL s.data) = some kw := by
      simp only [kwList, List.mem_cons, List.mem_singleton, List.not_mem_nil] at hmem
      rcases hmem with rfl | rfl | rfl | rfl | rfl | hf
      · simp [patLoop, kwList, List.findSome?_cons, h]
      · have h1 : patMatch kwIconArt (lastSegL s.data) = false := by
          rcases patMatch_decomp h with ⟨r, hr⟩ | ⟨r, hr⟩ <;> rw [hr] <;>
            simp +decide [patMatch, kwIconArt_eq, kwFrame_eq, List.isPrefixOf]
        simp [patLoop, kwList, List.findSome?_cons, h1, h]
      · have h1 : patMatch kwIconArt (lastSegL s.data) = false := by
          rcases patMatch_decomp h with ⟨r, hr⟩ | ⟨r, hr⟩ <;> rw [hr] <;>
            simp +decide [patMatch, kwIconArt_eq, kwDoodad_eq, List.isPrefixOf]
        have h2 : patMatch kwFrame (lastSegL s.data) = false := by
          rcases patMatch_decomp h with ⟨r, hr⟩ | ⟨r, hr⟩ <;> rw [hr] <;>
            simp +decide [patMatch, kwFrame_eq, kwDoodad_eq, List.isPrefixOf]
        simp [patLoop, kwList, List.findSome?_cons, h1, h2, h]
      · have h1 : patMatch kwIconArt (lastSegL s.data) = false := by
          rcases patMatch_decomp h with ⟨r, hr⟩ | ⟨r, hr⟩ <;> rw [hr] <;>
            simp +decide [patMatch, kwIconArt_eq, kwWindow_eq, List.isPrefixOf]
        have h2 : patMatch kwFrame (lastSegL s.data) = false := by
          rcases patMatch_decomp h with ⟨r, hr⟩ | ⟨r, hr⟩ <;> rw [hr] <;>
            simp +decide [patMatch, kwFrame_eq, kwWindow_eq, List.isPrefixOf]
        have h3 : patMatch kwDoodad (lastSegL s.data) = false := by
          rcases patMatch_decomp h with ⟨r, hr⟩ | ⟨r, hr⟩ <;> rw [hr] <;>
            simp +decide [patMatch, kwDoodad_eq, kwWindow_eq, List.isPrefixOf]
        simp [patLoop, kwList, List.findSome?_cons, h1, h2, h3, h]
      · have h1 : patMatch kwIconArt (lastSegL s.data) = false := by
          rcases patMatch_decomp h with ⟨r, hr⟩ | ⟨r, hr⟩ <;> rw [hr] <;>
            simp +decide [patMatch, kwIconArt_eq, kwButton_eq, List.isPrefixOf]
        have h2 : patMatch kwFrame (lastSegL s.data) = false := by
          rcases patMatch_decomp h with ⟨r, hr⟩ | ⟨r, hr⟩ <;> rw [hr] <;>
            simp +decide [patMatch, kwFrame_eq, kwButton_eq, List.isPrefixOf]
        have h3 : patMatch kwDoodad (lastSegL s.data) = false := by
          rcases patMatch_decomp h with ⟨r, hr⟩ | ⟨r, hr⟩ <;> rw [hr] <;>
            simp +decide [patMatch, kwDoodad_eq, kwButton_eq, List.isPrefixOf]
        have h4 : patMatch kwWindow (lastSegL s.data) = false := by
          rcases patMatch_decomp h with ⟨r, hr⟩ | ⟨r, hr⟩ <;> rw [hr] <;>
            simp +decide [patMatch, kwWindow_eq, kwButton_eq, List.isPrefixOf]
        simp [patLoop, kwList, List.findSome?_cons, h1, h2, h3, h4, h]
      · cases hf
    have hcat : extractCategoryL s.data = kw := by
      rw [extractCategoryL_norm]
      simp only [hloop]
    rw [extract_category, hcat]
  · decide

/-- Witness for the amended C5 at a concrete input. -/
theorem keyword_anchored_witness : extract_category "_DoodadMapArt05.svg" = ⟨kwDoodad⟩ :=
  keyword_anchored_amended.1 "_DoodadMapArt05.svg" kwDoodad (by decide) (by decide)

/-! ### Claim C6 -/

theorem dollarGroup_no_newline {r : List Char} (h : '\n' ∉ r) :
    dollarGroup r = if r = [] then none else some r := by
  simp [dollarGroup, h]

theorem searchA_no_newline : ∀ {l : List Char}, '\n' ∉ l → searchA l = afterLeftmostA l := by
  intro l
  induction l with
  | nil => intro _; rfl
  | cons c rest ih =>
    intro h
    have hrest : '\n' ∉ rest := fun hm => h (List.mem_cons_of_mem _ hm)
    have htail : '\n' ∉ rest.tail := fun hm => hrest (List.mem_of_mem_tail hm)
    rw [searchA, afterLeftmostA]
    split
    · next hc =>
      rw [dollarGroup_no_newline htail]
      by_cases ht : rest.tail = []
      · rw [if_pos ht]
        dsimp only
        obtain ⟨hca, hch⟩ := hc
        cases rest with
        | nil => simp at hch
        | cons r0 rs =>
          simp only [List.head?_cons, Option.some.injEq] at hch
          subst hch
          have hrs : rs = [] := by simpa using ht
          subst hrs
          decide
      · rw [if_neg ht]
    · exact ih hrest

theorem tryDS_no_newline {s : List Char} (h : '\n' ∉ s) : tryDS s = tryDSWords s := by
  rw [tryDS, tryDSWords]
  split
  · dsimp only
    split
    · rfl
    · split
      · next r2 heq =>
        have hr2 : '\n' ∉ r2 := by
          intro hm
          exact h (List.drop_subset _ _ (List.drop_subset _ _
            (heq ▸ List.mem_cons_of_mem _ hm)))
        rw [dollarGroup_no_newline hr2]
      · rfl
  · rfl

theorem searchDS_no_newline : ∀ {l : List Char}, '\n' ∉ l → searchDS l = searchDSWords l := by
  intro l
  induction l with
  | nil => intro _; rfl
  | cons c rest ih =>
    intro h
    rw [searchDS, searchDSWords, tryDS_no_newline h]
    cases htry : tryDSWords (c :: rest) with
    | some g => rfl
    | none => simpa using ih (fun hm => h (List.mem_cons_of_mem _ hm))

/-- C6 (amended): for every newline-free folder name, `extract_proper_name`
applies its rules first-match-wins as the claim describes: everything after
the leftmost `a_` followed by at least one character; otherwise the
`DefineSprite_<digits>_<rest>` rule; otherwise the input unchanged — with
the claim's three examples. -/
theorem proper_name_rules_amended :
    (∀ l : List Char, '\n' ∉ l → extractProperNameL l = properNameWords l) ∧
    extract_proper_name "DefineSprite_2_a_WaistSide_ThunderGolem" = "WaistSide_ThunderGolem" ∧
    extract_proper_name "DefineSprite_1234_Torso_EscapedGladiator" = "Torso_EscapedGladiator" ∧
    extract_proper_name "NoPatternHere" = "NoPatternHere" := by
  refine ⟨?_, by decide, by decide, by decide⟩
  intro l h
  rw [extractProperNameL, properNameWords, searchA_no_newline h, searchDS_no_newline h]

/-- Witness for the amended C6 at a concrete input. -/
theorem proper_name_rules_witness :
    extractProperNameL "DefineSprite_2_a_WaistSide_ThunderGolem".data =
      properNameWords "DefineSprite_2_a_WaistSide_ThunderGolem".data :=
  proper_name_rules_amended.1 _ (by decide)

/-! ### Counterexamples for the remaining corrected claims -/

/-- C4, counterexample: the fallback-alphabetic rule is preempted by a direct
keyword match, never sees a `'__'` confined to a directory segment, and
cannot return an empty run. -/
theorem fallback_alpha_counterexample :
    (extract_category "IconArt__Stuff1" = "IconArt" ∧ ("IconArt" : String) ≠ "Stuff") ∧
    (extract_category "a__b/c.svg" = "c" ∧ ("c" : String) ≠ "b") ∧
    (extract_category "a__9" = "a__9" ∧ ("a__9" : String) ≠ "") := by
  decide

/-- C5, counterexample: a filename beginning with a keyword but containing a
path separator is trimmed first, so the keyword in the directory segment is
not matched. -/
theorem keyword_slash_counterexample :
    "Frame".data.isPrefixOf "Frame/1.svg".data = true ∧
    extract_category "Frame/1.svg" = "1" ∧ ("1" : String) ≠ "Frame" := by
  decide

/-- C6, counterexample: with a newline in the folder name, Python's `.` and
`$` semantics make `re.search(r'a_(.+)$', ...)` fail even though the name
contains `a_` followed by characters, so the input is returned unchanged. -/
theorem proper_name_newline_counterexample :
    afterLeftmostA "a_b\nc".data = some "b\nc".data ∧
    extract_proper_name "a_b\nc" = "a_b\nc" ∧ ("a_b\nc" : String) ≠ "b\nc" := by
  decide

/-- C7, counterexample: with a pre-existing directory at the single-file
destination `sprites_done/X.svg`, `shutil.copy2` copies INTO that directory —
the run succeeds but the file lands at `sprites_done/X.svg/1.svg` and no
output FILE named `X.svg` exists at the output root, contrary to the
claim. -/
theorem fanout_counterexample :
    ((pyListdir ⟨[["sprites_done"], ["a_X"], ["sprites_done", "X.svg"]],
        [(["a_X", "1.svg"], 0)]⟩ ["a_X"]).filter endsSvg).length = 1 ∧
    processFolder ["sprites_done"] [] "a_X"
        ⟨[["sprites_done"], ["a_X"], ["sprites_done", "X.svg"]], [(["a_X", "1.svg"], 0)]⟩ =
      (⟨[["sprites_done"], ["a_X"], ["sprites_done", "X.svg"]],
        [(["sprites_done", "X.svg", "1.svg"], 0), (["a_X", "1.svg"], 0)]⟩,
        [["sprites_done", "X.svg"]], none) ∧
    (processFolder ["sprites_done"] [] "a_X"
        ⟨[["sprites_done"], ["a_X"], ["sprites_done", "X.svg"]],
          [(["a_X", "1.svg"], 0)]⟩).1.files.lookup ["sprites_done", "X.svg"] = none := by
  decide

/-- C8, counterexample: a pre-existing subfolder of the output directory
survives the run, so the output directory holds more subfolders than there
are categories. -/
theorem grouping_counterexample :
    (catKeys (selectFiles ⟨[["d"], ["out"], ["out", "Junk"]], [(["d", "x.svg"], 0)]⟩
        ["d"] (resolveTypes none))).length = 1 ∧
    ((organize_files ⟨[["d"], ["out"], ["out", "Junk"]], [(["d", "x.svg"], 0)]⟩ ["d"]
        (some ["out"]) none false false).1.dirs.filter
          (fun p => p.dropLast == ["out"])).length = 2 ∧
    (organize_files ⟨[["d"], ["out"], ["out", "Junk"]], [(["d", "x.svg"], 0)]⟩ ["d"]
        (some ["out"]) none false false).2 = none := by
  decide

/-! ### Claim C9: lookup machinery -/

theorem lookup_cons_ne {k p : FPath} {v : Nat} {l : List (FPath × Nat)} (h : p ≠ k) :
    ((k, v) :: l).lookup p = l.lookup p := by
  rw [List.lookup_cons, beq_eq_false_iff_ne.mpr h]

theorem lookup_filter_ne {p q : FPath} (l : List (FPath × Nat)) (h : p ≠ q) :
    (l.filter (fun e => e.1 != q)).lookup p = l.lookup p := by
  induction l with
  | nil => rfl
  | cons e rest ih =>
    obtain ⟨k, v⟩ := e
    by_cases hk : k = q
    · subst hk
      rw [List.filter_cons_of_neg (by simp), ih, lookup_cons_ne h]
    · rw [List.filter_cons_of_pos (by simpa using hk)]
      by_cases hp : p = k
      · subst hp
        simp
      · rw [lookup_cons_ne hp, lookup_cons_ne hp, ih]

theorem lookup_append_left_ne {p : FPath} (l1 l2 : List (FPath × Nat))
    (h : ∀ f ∈ l1, f.1 ≠ p) : (l1 ++ l2).lookup p = l2.lookup p := by
  induction l1 with
  | nil => rfl
  | cons e rest ih =>
    obtain ⟨k, v⟩ := e
    rw [List.cons_append, lookup_cons_ne (Ne.symm (h (k, v) (List.mem_cons_self _ _)))]
    exact ih (fun f hf => h f (List.mem_cons_of_mem _ hf))

theorem lookup_of_mem_nodup {l : List (FPath × Nat)} {p : FPath} {c : Nat}
    (hmem : (p, c) ∈ l) (hnd : (l.map (fun e => e.1)).Nodup) : l.lookup p = some c := by
  induction l with
  | nil => cases hmem
  | cons e rest ih =>
    obtain ⟨k, v⟩ := e
    rw [List.map_cons, List.nodup_cons] at hnd
    rcases List.mem_cons.mp hmem with heq | hmem2
    · injection heq with h1 h2
      subst h1
      subst h2
      simp
    · have hk : k ≠ p := by
        rintro rfl
        exact hnd.1 (List.mem_map_of_mem (fun e => e.1) hmem2)
      rw [lookup_cons_ne (Ne.symm hk)]
      exact ih hmem2 hnd.2

theorem lookup_mem : ∀ {l : List (FPath × Nat)} {k : FPath} {v : Nat},
    l.lookup k = some v → (k, v) ∈ l
  | [], _, _, h => by cases h
  | (k0, v0) :: rest, k, v, h => by
    rw [List.lookup_cons] at h
    split at h
    · next heq =>
      injection h with h2
      have hkk : k = k0 := by simpa using heq
      rw [hkk, h2]
      exact List.mem_cons_self _ _
    · exact List.mem_cons_of_mem _ (lookup_mem h)

theorem isDirOrRoot_eq_false {fs : FS} {p : FPath} (hne : p ≠ []) (hnd : p ∉ fs.dirs) :
    fs.isDirOrRoot p = false := by
  rw [FS.isDirOrRoot, Bool.or_eq_false_iff]
  constructor
  · simpa using hne
  · simpa [List.contains] using hnd

/-- `shutil.copy2` under freshness: the destination is a fresh non-directory
path distinct from the source, its parent exists, so the copy succeeds and
simply prepends the destination entry. -/
theorem copy2_fresh_ok {fs : FS} {src dst : FPath} {c : Nat}
    (hl : fs.files.lookup src = some c)
    (hne : dst ≠ []) (hnd : dst ∉ fs.dirs) (hsrc : src ≠ dst)
    (hparent : fs.isDirOrRoot dst.dropLast = true)
    (hff : ∀ f ∈ fs.files, f.1 ≠ dst) :
    copy2 fs src dst = .ok ⟨fs.dirs, (dst, c) :: fs.files⟩ := by
  have hjoin : (if fs.isDirOrRoot dst then dst ++ [lastName src] else dst) = dst :=
    if_neg (by simp [isDirOrRoot_eq_false hne hnd])
  have hfilt : fs.files.filter (fun e => e.1 != dst) = fs.files := by
    rw [List.filter_eq_self]
    intro f hf
    simpa using hff f hf
  rw [copy2]
  rw [hjoin, if_neg ?same, hl]
  · dsimp only
    rw [if_neg ?dirs, if_neg ?par]
    · rw [hfilt]
    case dirs =>
      intro hcon
      exact hnd (by simpa [List.contains] using hcon)
    case par =>
      rw [hparent]
      simp
  case same =>
    intro hcon
    exact hsrc hcon.1

theorem copy2_ok_shape {fs fs1 : FS} {src dst : FPath} (h : copy2 fs src dst = .ok fs1) :
    ∃ c d, fs.files.lookup src = some c ∧
      (d = dst ∨ d = dst ++ [lastName src]) ∧ d ≠ src ∧
      fs1 = ⟨fs.dirs, (d, c) :: fs.files.filter (fun e => e.1 != d)⟩ := by
  rw [copy2] at h
  set D := if fs.isDirOrRoot dst then dst ++ [lastName src] else dst with hD
  have hDor : D = dst ∨ D = dst ++ [lastName src] := by
    rw [hD]
    by_cases hc : fs.isDirOrRoot dst = true
    · rw [if_pos hc]
      exact Or.inr rfl
    · rw [if_neg hc]
      exact Or.inl rfl
  cases hl : fs.files.lookup src with
  | none =>
    rw [hl] at h
    dsimp only at h
    split_ifs at h
  | some c =>
    rw [hl] at h
    dsimp only at h
    split_ifs at h with h1 h2 h3
    refine ⟨c, D, rfl, hDor, ?_, (Except.ok.inj h).symm⟩
    intro hds
    apply h1
    refine ⟨hds.symm, ?_⟩
    rw [Bool.or_eq_true]
    left
    rw [List.any_eq_true]
    exact ⟨(src, c), lookup_mem hl, by simp⟩

theorem dest_dropLast (out : FPath) (cat n : String) :
    (out ++ [cat, n]).dropLast = out ++ [cat] := by
  rw [show out ++ [cat, n] = (out ++ [cat]) ++ [n] by simp]
  exact List.dropLast_concat

theorem path_concat {p : FPath} {d : FPath} (h1 : p.dropLast = d) (h2 : p ≠ []) :
    p = d ++ [lastName p] := by
  subst h1
  conv_lhs => rw [← List.dropLast_concat_getLast h2]
  rw [lastName, List.getLastD_eq_getLast?, List.getLast?_eq_getLast _ h2]
  rfl

theorem mem_topFiles {fs : FS} {dir : FPath} {e : FPath × Nat} (h : e ∈ topFiles fs dir) :
    e ∈ fs.files ∧ e.1.dropLast = dir ∧ e.1 ≠ [] := by
  rw [topFiles] at h
  have h2 := List.mem_filter.mp h
  simp only [Bool.and_eq_true, beq_iff_eq, bne_iff_ne, ne_eq] at h2
  exact ⟨h2.1, h2.2.1, h2.2.2⟩

theorem mem_selectFiles {fs : FS} {dir : FPath} {types : List String} {e : FPath × Nat}
    (h : e ∈ selectFiles fs dir types) : e ∈ fs.files ∧ e.1.dropLast = dir ∧ e.1 ≠ [] :=
  mem_topFiles (List.mem_filter.mp h).1

theorem mem_groupByCat {files : List (FPath × Nat)} {g : String × List (FPath × Nat)}
    (hg : g ∈ groupByCat files) : ∀ e ∈ g.2, e ∈ files ∧ catOf e = g.1 := by
  rw [groupByCat] at hg
  obtain ⟨k, hk, rfl⟩ := List.mem_map.mp hg
  intro e he
  have h2 := List.mem_filter.mp he
  exact ⟨h2.1, by simpa using h2.2⟩

theorem copyFiles_preserve_dir_lookup (out : FPath) (cat : String) (dry : Bool) (dir : FPath) :
    ∀ (es : List (FPath × Nat)) (fs : FS),
      (∀ e ∈ es, e.1.dropLast = dir ∧ e.1 ≠ []) →
      ∀ p : FPath, p.dropLast = dir →
        (copyFiles out cat dry fs es).1.files.lookup p = fs.files.lookup p
  | [], _, _, _, _ => rfl
  | e :: rest, fs, hes, p, hp => by
    have hrest : ∀ e2 ∈ rest, e2.1.dropLast = dir ∧ e2.1 ≠ [] :=
      fun e2 he2 => hes e2 (List.mem_cons_of_mem _ he2)
    rw [copyFiles]
    split
    · exact copyFiles_preserve_dir_lookup out cat dry dir rest fs hrest p hp
    · dsimp only
      split
      · exact copyFiles_preserve_dir_lookup out cat dry dir rest fs hrest p hp
      · next hskip =>
        cases hcp : copy2 fs e.1 (out ++ [cat, lastName e.1]) with
        | error msg => simp only [hcp]
        | ok fs1 =>
          simp only [hcp]
          obtain ⟨c, d, hl, hdor, hdsrc, rfl⟩ := copy2_ok_shape hcp
          have he := hes e (List.mem_cons_self _ _)
          have hdne : p ≠ d := by
            rcases hdor with rfl | rfl
            · intro hpe
              by_cases hcd : out ++ [cat] = dir
              · apply hskip
                calc e.1 = dir ++ [lastName e.1] := path_concat he.1 he.2
                  _ = (out ++ [cat]) ++ [lastName e.1] := by rw [hcd]
                  _ = out ++ [cat, lastName e.1] := by simp
              · apply hcd
                rw [← hp, hpe]
                exact (dest_dropLast out cat (lastName e.1)).symm
            · intro hpe
              apply hdsrc
              have hdl : out ++ [cat, lastName e.1] = dir := by
                rw [← hp, hpe, List.dropLast_concat]
              calc (out ++ [cat, lastName e.1]) ++ [lastName e.1]
                  = dir ++ [lastName e.1] := by rw [hdl]
                _ = e.1 := (path_concat he.1 he.2).symm
          rw [copyFiles_preserve_dir_lookup out cat dry dir rest _ hrest p hp]
          dsimp only
          rw [lookup_cons_ne hdne, lookup_filter_ne _ hdne]

theorem processGroups_preserve_dir_lookup (out : FPath) (dry : Bool) (dir : FPath) :
    ∀ (gs : List (String × List (FPath × Nat))) (fs : FS),
      (∀ g ∈ gs, ∀ e ∈ g.2, e.1.dropLast = dir ∧ e.1 ≠ []) →
      ∀ p : FPath, p.dropLast = dir →
        (processGroups out dry fs gs).1.files.lookup p = fs.files.lookup p
  | [], _, _, _, _ => rfl
  | (cat, es) :: rest, fs, hgs, p, hp => by
    have hrest : ∀ g ∈ rest, ∀ e ∈ g.2, e.1.dropLast = dir ∧ e.1 ≠ [] :=
      fun g hg => hgs g (List.mem_cons_of_mem _ hg)
    rw [processGroups]
    cases hmk : (if dry then Except.ok fs else mkdirExistOk fs (out ++ [cat])) with
    | error msg => simp only
    | ok fs1 =>
      dsimp only
      have hfs1 : fs1.files = fs.files := by
        by_cases hd : dry
        · rw [if_pos hd] at hmk
          injection hmk with h2
          rw [← h2]
        · rw [if_neg hd] at hmk
          exact (mkdirExistOk_ok_shape hmk).1
      have hcf := copyFiles_preserve_dir_lookup out cat dry dir es fs1
        (hgs _ (List.mem_cons_self _ _)) p hp
      rcases hcp : copyFiles out cat dry fs1 es with ⟨fs2, r⟩
      rw [hcp] at hcf
      have hcf2 : fs2.files.lookup p = fs1.files.lookup p := hcf
      cases r with
      | none =>
        dsimp only
        rw [processGroups_preserve_dir_lookup out dry dir rest fs2 hrest p hp, hcf2, hfs1]
      | some msg =>
        dsimp only
        rw [hcf2, hfs1]

theorem organizeCore_preserve_dir_lookup (out dir : FPath) (types : List String)
    (dry : Bool) (fs : FS) (p : FPath) (hp : p.dropLast = dir) :
    (organizeCore out dir types dry false fs).1.files.lookup p = fs.files.lookup p := by
  rw [organizeCore]
  split
  · have hgs : ∀ g ∈ groupByCat (selectFiles fs dir types), ∀ e ∈ g.2,
        e.1.dropLast = dir ∧ e.1 ≠ [] := by
      intro g hg e he
      exact (mem_selectFiles (mem_groupByCat hg e he).1).2
    have hpres := processGroups_preserve_dir_lookup out dry dir _ fs hgs p hp
    cases hpg : processGroups out dry fs (groupByCat (selectFiles fs dir types)) with
    | mk fs1 r =>
      rw [hpg] at hpres
      cases r with
      | some msg => simpa using hpres
      | none => simpa using hpres
  · rfl

theorem lookup_del_filter_true {dir : FPath} {types : List String} {p : FPath}
    (l : List (FPath × Nat)) (hc : delCond dir types p = true) :
    (l.filter (fun e => !delCond dir types e.1)).lookup p = none := by
  induction l with
  | nil => rfl
  | cons e rest ih =>
    obtain ⟨k, v⟩ := e
    by_cases hk : k = p
    · subst hk
      rw [List.filter_cons_of_neg (by simp [hc])]
      exact ih
    · rw [List.filter_cons]
      split
      · rw [lookup_cons_ne (Ne.symm hk)]
        exact ih
      · exact ih

theorem lookup_del_filter_false {dir : FPath} {types : List String} {p : FPath}
    (l : List (FPath × Nat)) (hc : delCond dir types p = false) :
    (l.filter (fun e => !delCond dir types e.1)).lookup p = l.lookup p := by
  induction l with
  | nil => rfl
  | cons e rest ih =>
    obtain ⟨k, v⟩ := e
    by_cases hk : k = p
    · subst hk
      rw [List.filter_cons_of_pos (by simp [hc])]
      simp
    · rw [List.filter_cons]
      split
      · rw [lookup_cons_ne (Ne.symm hk), lookup_cons_ne (Ne.symm hk)]
        exact ih
      · rw [lookup_cons_ne (Ne.symm hk)]
        exact ih

theorem organizeCore_delete_lookup (out dir : FPath) (types : List String) (fs : FS)
    (herr : (organizeCore out dir types false true fs).2 = none)
    (p : FPath) (hp : p.dropLast = dir) (hpne : p ≠ []) :
    (organizeCore out dir types false true fs).1.files.lookup p =
      (if types.contains (suffixLowerName (lastName p)) then none
       else fs.files.lookup p) := by
  rw [organizeCore] at herr ⊢
  by_cases hdir : fs.isDirOrRoot dir = true
  · rw [if_pos hdir] at herr ⊢
    have hgs : ∀ g ∈ groupByCat (selectFiles fs dir types), ∀ e ∈ g.2,
        e.1.dropLast = dir ∧ e.1 ≠ [] := by
      intro g hg e he
      exact (mem_selectFiles (mem_groupByCat hg e he).1).2
    have hpres := processGroups_preserve_dir_lookup out false dir _ fs hgs p hp
    rcases hpg : processGroups out false fs (groupByCat (selectFiles fs dir types)) with ⟨fs1, r⟩
    rw [hpg] at hpres
    have hpres2 : fs1.files.lookup p = fs.files.lookup p := hpres
    cases r with
    | some msg =>
      rw [hpg] at herr
      exact Option.noConfusion herr
    | none =>
      show (fs1.files.filter (fun e => !delCond dir types e.1)).lookup p = _
      have hdel : delCond dir types p = types.contains (suffixLowerName (lastName p)) := by
        simp [delCond, hp, hpne]
      by_cases hty : types.contains (suffixLowerName (lastName p)) = true
      · rw [if_pos hty]
        exact lookup_del_filter_true _ (hdel.trans hty)
      · rw [if_neg hty]
        rw [lookup_del_filter_false _ (by rw [hdel]; simpa using hty), hpres2]
  · rw [if_neg hdir] at herr
    simp at herr

theorem copy2_exists {fs fs1 : FS} {src dst : FPath} (h : copy2 fs src dst = .ok fs1)
    {p : FPath} {c : Nat} (hm : (p, c) ∈ fs.files) : ∃ c2, (p, c2) ∈ fs1.files := by
  obtain ⟨c0, d, hl, _, _, rfl⟩ := copy2_ok_shape h
  by_cases hp : p = d
  · subst hp
    exact ⟨c0, List.mem_cons_self _ _⟩
  · exact ⟨c, List.mem_cons_of_mem _ (List.mem_filter.mpr ⟨hm, by simpa using hp⟩)⟩

theorem copyFiles_exists (out : FPath) (cat : String) (dry : Bool) :
    ∀ (es : List (FPath × Nat)) (fs : FS) (p : FPath) (c : Nat), (p, c) ∈ fs.files →
      ∃ c2, (p, c2) ∈ (copyFiles out cat dry fs es).1.files
  | [], _, _, c, hm => ⟨c, hm⟩
  | e :: rest, fs, p, c, hm => by
    rw [copyFiles]
    split
    · exact copyFiles_exists out cat dry rest fs p c hm
    · dsimp only
      split
      · exact copyFiles_exists out cat dry rest fs p c hm
      · rcases hcp : copy2 fs e.1 (out ++ [cat, lastName e.1]) with msg | fs1
        · exact ⟨c, hm⟩
        · obtain ⟨c2, hm2⟩ := copy2_exists hcp hm
          exact copyFiles_exists out cat dry rest fs1 p c2 hm2

theorem processGroups_exists (out : FPath) (dry : Bool) :
    ∀ (gs : List (String × List (FPath × Nat))) (fs : FS) (p : FPath) (c : Nat),
      (p, c) ∈ fs.files → ∃ c2, (p, c2) ∈ (processGroups out dry fs gs).1.files
  | [], _, _, c, hm => ⟨c, hm⟩
  | (cat, es) :: rest, fs, p, c, hm => by
    rw [processGroups]
    rcases hmk : (if dry then Except.ok fs else mkdirExistOk fs (out ++ [cat])) with msg | fs1
    · exact ⟨c, hm⟩
    · dsimp only
      have hm1 : (p, c) ∈ fs1.files := by
        have hf : fs1.files = fs.files := by
          by_cases hd : dry
          · rw [if_pos hd] at hmk
            injection hmk with h2
            rw [← h2]
          · rw [if_neg hd] at hmk
            exact (mkdirExistOk_ok_shape hmk).1
        rw [hf]
        exact hm
      obtain ⟨c2, hm2⟩ := copyFiles_exists out cat dry es fs1 p c hm1
      rcases hcp : copyFiles out cat dry fs1 es with ⟨fs2, r⟩
      rw [hcp] at hm2
      cases r with
      | none => exact processGroups_exists out dry rest fs2 p c2 hm2
      | some msg => exact ⟨c2, hm2⟩

theorem organizeCore_exists (out dir : FPath) (types : List String) (dry del : Bool)
    (fs : FS) (p : FPath) (c : Nat) (hm : (p, c) ∈ fs.files) (hpd : p.dropLast ≠ dir) :
    ∃ c2, (p, c2) ∈ (organizeCore out dir types dry del fs).1.files := by
  rw [organizeCore]
  split
  · obtain ⟨c2, hm2⟩ :=
      processGroups_exists out dry (groupByCat (selectFiles fs dir types)) fs p c hm
    rcases hpg : processGroups out dry fs (groupByCat (selectFiles fs dir types)) with ⟨fs1, r⟩
    rw [hpg] at hm2
    cases r with
    | some msg => exact ⟨c2, hm2⟩
    | none =>
      dsimp only
      split
      · exact ⟨c2, List.mem_filter.mpr ⟨hm2, by simp [delCond, hpd]⟩⟩
      · exact ⟨c2, hm2⟩
  · exact ⟨c, hm⟩

theorem organize_files_preserve (fs : FS) (dir : FPath) (output : Option FPath)
    (ft : Option (List String)) (dry del : Bool) (hdd : del = false ∨ dry = true)
    (p : FPath) (hp : p.dropLast = dir) :
    (organize_files fs dir output ft dry del).1.files.lookup p = fs.files.lookup p := by
  have hcore : ∀ (out : FPath) (fs0 : FS), fs0.files = fs.files →
      (organizeCore out dir (resolveTypes ft) dry del fs0).1.files.lookup p =
        fs.files.lookup p := by
    intro out fs0 hf
    rcases hdd with rfl | rfl
    · rw [organizeCore_preserve_dir_lookup out dir _ dry fs0 p hp, hf]
    · rcases organizeCore_dry out dir (resolveTypes ft) del fs0 with h | h <;>
        · rw [h]
          dsimp only
          rw [hf]
  cases output with
  | none => exact hcore dir fs rfl
  | some o =>
    rw [organize_files]
    rcases hmk : mkdirExistOk fs o with msg | fs1
    · rfl
    · exact hcore o fs1 (mkdirExistOk_ok_shape hmk).1

theorem organize_files_delete_lookup (fs : FS) (dir : FPath) (output : Option FPath)
    (ft : Option (List String))
    (herr : (organize_files fs dir output ft false true).2 = none)
    (p : FPath) (hp : p.dropLast = dir) (hpne : p ≠ []) :
    (organize_files fs dir output ft false true).1.files.lookup p =
      (if (resolveTypes ft).contains (suffixLowerName (lastName p)) then none
       else fs.files.lookup p) := by
  cases output with
  | none => exact organizeCore_delete_lookup dir dir (resolveTypes ft) fs herr p hp hpne
  | some o =>
    rw [organize_files] at herr ⊢
    rcases hmk : mkdirExistOk fs o with msg | fs1
    · rw [hmk] at herr
      exact Option.noConfusion herr
    · rw [hmk] at herr
      dsimp only at herr ⊢
      have h1 := organizeCore_delete_lookup o dir (resolveTypes ft) fs1 herr p hp hpne
      rw [h1, (mkdirExistOk_ok_shape hmk).1]

theorem organize_files_exists (fs : FS) (dir : FPath) (output : Option FPath)
    (ft : Option (List String)) (dry del : Bool) (p : FPath) (c : Nat)
    (hm : (p, c) ∈ fs.files) (hpd : p.dropLast ≠ dir) :
    ∃ c2, (p, c2) ∈ (organize_files fs dir output ft dry del).1.files := by
  cases output with
  | none => exact organizeCore_exists dir dir (resolveTypes ft) dry del fs p c hm hpd
  | some o =>
    rw [organize_files]
    rcases hmk : mkdirExistOk fs o with msg | fs1
    · exact ⟨c, hm⟩
    · exact organizeCore_exists o dir (resolveTypes ft) dry del fs1 p c
        (by rw [(mkdirExistOk_ok_shape hmk).1]; exact hm) hpd

/-- C9: copying never mutates or removes a top-level source file (their
lookups are unchanged whenever deletion is off or dry-run is on); with
delete-originals and no dry-run, after a successful run every top-level file
of the source directory whose lower-cased suffix is in the allowed set is
deleted — copied or skipped alike — while every other top-level file is
untouched; and files outside the source directory's top level are never
deleted by any run. -/
theorem copy_never_mutates_sources (fs : FS) (dir : FPath) (output : Option FPath)
    (ft : Option (List String)) (dry del : Bool) :
    ((del = false ∨ dry = true) → ∀ p : FPath, p.dropLast = dir →
      (organize_files fs dir output ft dry del).1.files.lookup p = fs.files.lookup p) ∧
    ((organize_files fs dir output ft false true).2 = none → ∀ p : FPath,
      p.dropLast = dir → p ≠ [] →
      (organize_files fs dir output ft false true).1.files.lookup p =
        (if (resolveTypes ft).contains (suffixLowerName (lastName p)) then none
         else fs.files.lookup p)) ∧
    (∀ p c, (p, c) ∈ fs.files → p.dropLast ≠ dir →
      ∃ c2, (p, c2) ∈ (organize_files fs dir output ft dry del).1.files) :=
  ⟨fun hdd p hp => organize_files_preserve fs dir output ft dry del hdd p hp,
   fun herr p hp hpne => organize_files_delete_lookup fs dir output ft herr p hp hpne,
   fun p c hm hpd => organize_files_exists fs dir output ft dry del p c hm hpd⟩

/-- Witness for C9 at a concrete input. -/
theorem copy_never_mutates_witness :
    (organize_files ⟨[["d"]], [(["d", "x.svg"], 7)]⟩ ["d"] (some ["o"]) none false
        false).1.files.lookup ["d", "x.svg"] =
      (⟨[["d"]], [(["d", "x.svg"], 7)]⟩ : FS).files.lookup ["d", "x.svg"] :=
  (copy_never_mutates_sources ⟨[["d"]], [(["d", "x.svg"], 7)]⟩ ["d"] (some ["o"]) none
    false false).1 (Or.inl rfl) ["d", "x.svg"] (by decide)

/-! ### Claim C8: grouping machinery -/

/-- Destination path of a copied entry: `output_dir / category / name`. -/
def destOf (out : FPath) (cat : String) (e : FPath × Nat) : FPath :=
  out ++ [cat, lastName e.1]

/-- Destination entry (same content, `copy2` preserves it). -/
def entryOf (out : FPath) (cat : String) (e : FPath × Nat) : FPath × Nat :=
  (destOf out cat e, e.2)

theorem destOf_name_inj {out : FPath} {cat n1 n2 : String}
    (h : out ++ [cat, n1] = out ++ [cat, n2]) : n1 = n2 := by
  simpa using List.append_cancel_left h

theorem dest_ne_catDir (out : FPath) (c1 n k : String) : out ++ [c1, n] ≠ out ++ [k] := by
  intro h
  have := congrArg List.length h
  simp at this

theorem dest_ne_dest {out : FPath} {c1 c2 n1 n2 : String} (h : c1 ≠ c2) :
    out ++ [c1, n1] ≠ out ++ [c2, n2] := by
  intro he
  have h2 := List.append_cancel_left he
  simp at h2
  exact h h2.1

theorem catDir_inj {out : FPath} {c1 c2 : String} (h : out ++ [c1] = out ++ [c2]) :
    c1 = c2 := by
  simpa using List.append_cancel_left h

theorem catKeys_nodup : ∀ files : List (FPath × Nat), (catKeys files).Nodup
  | [] => List.nodup_nil
  | e :: rest => by
    rw [catKeys, List.nodup_cons]
    refine ⟨fun hmem => ?_, (catKeys_nodup rest).filter _⟩
    have := (List.mem_filter.mp hmem).2
    simp at this

theorem catOf_mem_catKeys : ∀ {files : List (FPath × Nat)} {e : FPath × Nat},
    e ∈ files → catOf e ∈ catKeys files := by
  intro files
  induction files with
  | nil => intro e h; cases h
  | cons e0 rest ih =>
    intro e h
    rw [catKeys]
    rcases List.mem_cons.mp h with rfl | h2
    · exact List.mem_cons_self _ _
    · by_cases hc : catOf e = catOf e0
      · rw [hc]
        exact List.mem_cons_self _ _
      · exact List.mem_cons_of_mem _ (List.mem_filter.mpr ⟨ih h2, by simpa using hc⟩)

theorem groupByCat_keys (files : List (FPath × Nat)) :
    (groupByCat files).map (fun g => g.1) = catKeys files := by
  have hcomp : ((fun g : String × List (FPath × Nat) => g.1) ∘
      (fun k => (k, files.filter (fun e => catOf e == k)))) = fun k => k := rfl
  rw [groupByCat, List.map_map, hcomp]
  simp

theorem filter_of_imp {α : Type} (p q : α → Bool) (l : List α)
    (h : ∀ x ∈ l, p x = true → q x = true) : (l.filter q).filter p = l.filter p := by
  induction l with
  | nil => rfl
  | cons a rest ih =>
    have hrest : ∀ x ∈ rest, p x = true → q x = true :=
      fun x hx => h x (List.mem_cons_of_mem _ hx)
    by_cases hp : p a = true
    · rw [List.filter_cons_of_pos (h a (List.mem_cons_self _ _) hp),
        List.filter_cons_of_pos hp, List.filter_cons_of_pos hp, ih hrest]
    · by_cases hq : q a = true
      · rw [List.filter_cons_of_pos hq, List.filter_cons_of_neg (by simpa using hp),
          List.filter_cons_of_neg (by simpa using hp)]
        exact ih hrest
      · rw [List.filter_cons_of_neg (by simpa using hq),
          List.filter_cons_of_neg (by simpa using hp)]
        exact ih hrest

theorem sum_filter_lengths {α : Type} (f : α → String) :
    ∀ (keys : List String) (l : List α), keys.Nodup → (∀ x ∈ l, f x ∈ keys) →
      ((keys.map (fun k => (l.filter (fun x => f x == k)).length)).sum) = l.length
  | [], l, _, hcov => by
    have hl : l = [] := List.eq_nil_iff_forall_not_mem.mpr
      (fun a ha => by simpa using hcov a ha)
    rw [hl]
    rfl
  | k :: rest, l, hnd, hcov => by
    rw [List.map_cons, List.sum_cons, List.nodup_cons] at *
    have hmapeq : rest.map (fun k2 => (l.filter (fun x => f x == k2)).length)
        = rest.map (fun k2 =>
            ((l.filter (fun x => !(f x == k))).filter (fun x => f x == k2)).length) := by
      apply List.map_congr_left
      intro k2 hk2
      rw [filter_of_imp _ _ l]
      intro x _ hfx
      simp only [beq_iff_eq] at hfx
      simp only [Bool.not_eq_eq_eq_not, Bool.not_true, beq_eq_false_iff_ne, ne_eq, hfx]
      rintro rfl
      exact hnd.1 hk2
    have hcov2 : ∀ x ∈ l.filter (fun x => !(f x == k)), f x ∈ rest := by
      intro x hx
      have h1 := List.mem_filter.mp hx
      rcases List.mem_cons.mp (hcov x h1.1) with he | he
      · exfalso
        simp [he] at h1
      · exact he
    rw [hmapeq, sum_filter_lengths f rest (l.filter (fun x => !(f x == k))) hnd.2 hcov2]
    have hperm := (List.filter_append_perm (fun x => f x == k) l).length_eq
    rw [List.length_append] at hperm
    omega

theorem copyFiles_exact (out : FPath) (cat : String) (dir : FPath) (hcat : out ++ [cat] ≠ dir) :
    ∀ (es : List (FPath × Nat)) (fs : FS),
      (out ++ [cat]) ∈ fs.dirs →
      (∀ e ∈ es, fs.files.lookup e.1 = some e.2 ∧ e.1.dropLast = dir ∧ e.1 ≠ []) →
      (∀ e ∈ es, (∀ f ∈ fs.files, f.1 ≠ destOf out cat e) ∧ destOf out cat e ∉ fs.dirs) →
      ((es.map (fun e => lastName e.1)).Nodup) →
      copyFiles out cat false fs es =
        (⟨fs.dirs, (es.map (entryOf out cat)).reverse ++ fs.files⟩, none)
  | [], fs, _, _, _, _ => rfl
  | e :: rest, fs, hdirs, hes, hfresh, hnames => by
    have he := hes e (List.mem_cons_self _ _)
    have hef := hfresh e (List.mem_cons_self _ _)
    rw [copyFiles, if_neg Bool.false_ne_true]
    dsimp only
    have hskip : ¬ e.1 = out ++ [cat, lastName e.1] := by
      intro heq
      apply hcat
      rw [← dest_dropLast out cat (lastName e.1), ← heq]
      exact he.2.1
    rw [if_neg hskip]
    have hroot : fs.isDirOrRoot (out ++ [cat]) = true := by
      simp [FS.isDirOrRoot, List.contains, hdirs]
    have hcp : copy2 fs e.1 (out ++ [cat, lastName e.1]) =
        .ok ⟨fs.dirs, (out ++ [cat, lastName e.1], e.2) :: fs.files⟩ :=
      copy2_fresh_ok he.1 (by simp) hef.2 hskip
        (by rw [dest_dropLast]; exact hroot) hef.1
    rw [hcp]
    dsimp only
    rw [copyFiles_exact out cat dir hcat rest
      ⟨fs.dirs, (out ++ [cat, lastName e.1], e.2) :: fs.files⟩ hdirs ?hl ?hf ?hn]
    · simp [entryOf, destOf, List.append_assoc]
    case hl =>
      intro e' he'
      have h5 := hes e' (List.mem_cons_of_mem _ he')
      refine ⟨?_, h5.2⟩
      show ((out ++ [cat, lastName e.1], e.2) :: fs.files).lookup e'.1 = some e'.2
      rw [lookup_cons_ne ?ne]
      · exact h5.1
      case ne =>
        intro heq
        apply hcat
        rw [← dest_dropLast out cat (lastName e.1), ← heq]
        exact h5.2.1
    case hf =>
      intro e' he'
      have h6 := hfresh e' (List.mem_cons_of_mem _ he')
      refine ⟨?_, h6.2⟩
      intro f hf
      rcases List.mem_cons.mp hf with rfl | hf2
      · show out ++ [cat, lastName e.1] ≠ destOf out cat e'
        intro heq
        have hne := destOf_name_inj heq
        rw [List.map_cons, List.nodup_cons] at hnames
        apply hnames.1
        rw [hne]
        exact List.mem_map_of_mem _ he'
      · exact h6.1 f hf2
    case hn =>
      rw [List.map_cons, List.nodup_cons] at hnames
      exact hnames.2

theorem processGroups_exact (out dir : FPath) :
    ∀ (gs : List (String × List (FPath × Nat))) (fs : FS),
      out ∈ fs.dirs →
      ((gs.map (fun g => g.1)).Nodup) →
      (∀ g ∈ gs, out ++ [g.1] ≠ dir) →
      (∀ g ∈ gs, out ++ [g.1] ∉ fs.dirs ∧ ∀ f ∈ fs.files, f.1 ≠ out ++ [g.1]) →
      (∀ g ∈ gs, ∀ e ∈ g.2,
        fs.files.lookup e.1 = some e.2 ∧ e.1.dropLast = dir ∧ e.1 ≠ []) →
      (∀ g ∈ gs, ∀ e ∈ g.2,
        (∀ f ∈ fs.files, f.1 ≠ destOf out g.1 e) ∧ destOf out g.1 e ∉ fs.dirs) →
      (∀ g ∈ gs, ((g.2.map (fun e => lastName e.1)).Nodup)) →
      processGroups out false fs gs =
        (⟨(gs.map (fun g => out ++ [g.1])).reverse ++ fs.dirs,
          (gs.flatMap (fun g => g.2.map (entryOf out g.1))).reverse ++ fs.files⟩, none)
  | [], fs, _, _, _, _, _, _, _ => rfl
  | (cat, es) :: rest, fs, hout, hkeys, hne, hcd, hlk, hdf, hnm => by
    have hcdh := hcd _ (List.mem_cons_self _ _)
    have hmk : mkdirExistOk fs (out ++ [cat]) =
        .ok ⟨(out ++ [cat]) :: fs.dirs, fs.files⟩ := by
      rw [mkdirExistOk]
      rw [if_neg ?m1, if_neg ?m2, if_neg ?m3, if_pos ?m4]
      case m1 =>
        intro hc
        exact hcdh.1 (by simpa [List.contains] using hc)
      case m2 =>
        intro hc
        rw [List.any_eq_true] at hc
        obtain ⟨f, hf, hbeq⟩ := hc
        exact hcdh.2 f hf (by simpa using hbeq)
      case m3 => simp
      case m4 =>
        rw [List.dropLast_concat]
        simp [FS.isDirOrRoot, List.contains, hout]
    rw [processGroups, if_neg Bool.false_ne_true, hmk]
    dsimp only
    rw [copyFiles_exact out cat dir (hne _ (List.mem_cons_self _ _)) es
      ⟨(out ++ [cat]) :: fs.dirs, fs.files⟩ (List.mem_cons_self _ _)
      (hlk _ (List.mem_cons_self _ _)) ?f1 (hnm _ (List.mem_cons_self _ _))]
    case f1 =>
      intro e he
      have h6 := hdf _ (List.mem_cons_self _ _) e he
      refine ⟨h6.1, ?_⟩
      intro hmem
      rcases List.mem_cons.mp hmem with heq | hmem2
      · exact dest_ne_catDir out cat (lastName e.1) cat heq
      · exact h6.2 hmem2
    dsimp only
    rw [processGroups_exact out dir rest ⟨(out ++ [cat]) :: fs.dirs,
      (es.map (entryOf out cat)).reverse ++ fs.files⟩ ?r0 ?r1 ?r2 ?r3 ?r4 ?r5 ?r6]
    · simp [List.append_assoc]
    case r0 => exact List.mem_cons_of_mem _ hout
    case r1 =>
      rw [List.map_cons, List.nodup_cons] at hkeys
      exact hkeys.2
    case r2 => exact fun g hg => hne g (List.mem_cons_of_mem _ hg)
    case r3 =>
      intro g hg
      rw [List.map_cons, List.nodup_cons] at hkeys
      constructor
      · intro hmem
        rcases List.mem_cons.mp hmem with heq | hmem2
        · apply hkeys.1
          rw [← catDir_inj heq]
          exact List.mem_map.mpr ⟨g, hg, rfl⟩
        · exact (hcd g (List.mem_cons_of_mem _ hg)).1 hmem2
      · intro f hf
        rcases List.mem_append.mp hf with hnew | hold
        · rw [List.mem_reverse] at hnew
          obtain ⟨e, _, rfl⟩ := List.mem_map.mp hnew
          exact dest_ne_catDir out cat (lastName e.1) g.1
        · exact (hcd g (List.mem_cons_of_mem _ hg)).2 f hold
    case r4 =>
      intro g hg e he
      have h5 := hlk g (List.mem_cons_of_mem _ hg) e he
      refine ⟨?_, h5.2⟩
      show ((es.map (entryOf out cat)).reverse ++ fs.files).lookup e.1 = some e.2
      rw [lookup_append_left_ne]
      · exact h5.1
      · intro f hf
        rw [List.mem_reverse] at hf
        obtain ⟨e2, _, rfl⟩ := List.mem_map.mp hf
        intro heq
        apply hne _ (List.mem_cons_self _ _)
        calc out ++ [cat]
            = (out ++ [cat, lastName e2.1]).dropLast :=
              (dest_dropLast out cat (lastName e2.1)).symm
          _ = e.1.dropLast := congrArg List.dropLast heq
          _ = dir := h5.2.1
    case r5 =>
      intro g hg e he
      have h6 := hdf g (List.mem_cons_of_mem _ hg) e he
      constructor
      · intro f hf
        rcases List.mem_append.mp hf with hnew | hold
        · rw [List.mem_reverse] at hnew
          obtain ⟨e2, _, rfl⟩ := List.mem_map.mp hnew
          apply dest_ne_dest
          rw [List.map_cons, List.nodup_cons] at hkeys
          intro hceq
          apply hkeys.1
          rw [hceq]
          exact List.mem_map.mpr ⟨g, hg, rfl⟩
        · exact h6.1 f hold
      · intro hmem
        rcases List.mem_cons.mp hmem with heq | hmem2
        · exact dest_ne_catDir out g.1 (lastName e.1) cat heq
        · exact h6.2 hmem2
    case r6 => exact fun g hg => hnm g (List.mem_cons_of_mem _ hg)

theorem flatMap_filter_key (out : FPath) (k : String) :
    ∀ gs : List (String × List (FPath × Nat)),
      (gs.flatMap (fun g => g.2.map (entryOf out g.1))).filter
          (fun e => e.1.dropLast == out ++ [k])
        = gs.flatMap (fun g => if g.1 = k then g.2.map (entryOf out g.1) else [])
  | [] => rfl
  | (c, es) :: rest => by
    rw [List.flatMap_cons, List.flatMap_cons, List.filter_append,
      flatMap_filter_key out k rest]
    congr 1
    by_cases hc : c = k
    · subst hc
      rw [if_pos rfl, List.filter_eq_self]
      intro a ha
      obtain ⟨e, _, rfl⟩ := List.mem_map.mp ha
      simp [entryOf, destOf, dest_dropLast]
    · rw [if_neg hc, List.filter_eq_nil_iff.mpr]
      intro a ha
      obtain ⟨e, _, rfl⟩ := List.mem_map.mp ha
      simp only [entryOf, destOf, dest_dropLast, beq_iff_eq]
      intro heq
      exact hc (catDir_inj heq)

theorem flatMap_keys_single (out : FPath) (k : String) (files : List (FPath × Nat)) :
    ∀ keys : List String, keys.Nodup →
      ((keys.map (fun k2 => (k2, files.filter (fun e => catOf e == k2)))).flatMap
          (fun g => if g.1 = k then g.2.map (entryOf out g.1) else []))
        = if k ∈ keys then (files.filter (fun e => catOf e == k)).map (entryOf out k)
          else []
  | [], _ => by simp
  | k1 :: rest, hnd => by
    rw [List.nodup_cons] at hnd
    rw [List.map_cons, List.flatMap_cons, flatMap_keys_single out k files rest hnd.2]
    by_cases hc : k1 = k
    · subst hc
      rw [if_pos rfl, if_neg hnd.1, if_pos (List.mem_cons_self _ _)]
      simp
    · rw [if_neg hc, List.nil_append]
      have hkk : ¬ k = k1 := fun h => hc h.symm
      simp [List.mem_cons, hkk]

theorem organize_files_some_result (fs FSx : FS) (dir out : FPath)
    (ft : Option (List String)) (del : Bool)
    (hmkout : mkdirExistOk fs out = .ok fs)
    (hdirb : fs.isDirOrRoot dir = true)
    (hpg : processGroups out false fs
      (groupByCat (selectFiles fs dir (resolveTypes ft))) = (FSx, none)) :
    organize_files fs dir (some out) ft false del =
      (if del = true then
        (delete_non_foldered_files FSx dir (resolveTypes ft), none)
       else (FSx, none)) := by
  rw [organize_files, hmkout]
  dsimp only
  rw [organizeCore, if_pos hdirb, hpg]
  dsimp only
  cases del <;> simp

/-- C8 (amended): for a non-dry-run invocation with a supplied output
directory that is distinct from the source directory and initially holds
nothing beneath it, the run succeeds; afterwards the subfolders of the
output directory are exactly one folder per distinct category, each category
folder holds exactly the copies of the files whose category maps to it, and
the total number of files under the output directory equals the number of
selected source files. -/
theorem grouping_roundtrip_amended (fs : FS) (dir out : FPath)
    (ft : Option (List String)) (del : Bool)
    (hwf : (fs.files.map (fun e => e.1)).Nodup)
    (hdir : dir ∈ fs.dirs)
    (hout : out ∈ fs.dirs)
    (houtne : out ≠ [])
    (hnedir : out ≠ dir)
    (hfreshF : ∀ e ∈ fs.files, ¬ out <+: e.1)
    (hfreshD : ∀ d ∈ fs.dirs, out <+: d → d = out) :
    (organize_files fs dir (some out) ft false del).2 = none ∧
    List.Perm
      ((organize_files fs dir (some out) ft false del).1.dirs.filter
        (fun d => d.dropLast == out))
      ((catKeys (selectFiles fs dir (resolveTypes ft))).map (fun k => out ++ [k])) ∧
    (∀ k : String,
      List.Perm
        ((organize_files fs dir (some out) ft false del).1.files.filter
          (fun e => e.1.dropLast == out ++ [k]))
        (((selectFiles fs dir (resolveTypes ft)).filter
          (fun e => catOf e == k)).map (entryOf out k))) ∧
    ((organize_files fs dir (some out) ft false del).1.files.filter
        (fun e => out.isPrefixOf e.1)).length
      = (selectFiles fs dir (resolveTypes ft)).length := by
  have hmkout : mkdirExistOk fs out = .ok fs := by
    rw [mkdirExistOk, if_pos (show fs.dirs.contains out = true by
      simp [List.contains, hout])]
  have hdirb : fs.isDirOrRoot dir = true := by
    simp [FS.isDirOrRoot, List.contains, hdir]
  have houtk_ne_dir : ∀ k : String, out ++ [k] ≠ dir := by
    intro k heq
    exact hnedir (hfreshD dir hdir (heq ▸ List.prefix_append out [k])).symm
  have houtk_not_dir_mem : ∀ k : String, out ++ [k] ∉ fs.dirs := by
    intro k hmem
    have h2 := hfreshD _ hmem (List.prefix_append out [k])
    have := congrArg List.length h2
    simp at this
  have houtk_not_file : ∀ (k : String) (f : FPath × Nat), f ∈ fs.files →
      f.1 ≠ out ++ [k] := by
    intro k f hf heq
    exact hfreshF f hf (by rw [heq]; exact List.prefix_append out [k])
  have hdest_not_file : ∀ (k n : String) (f : FPath × Nat), f ∈ fs.files →
      f.1 ≠ out ++ [k, n] := by
    intro k n f hf heq
    exact hfreshF f hf (by rw [heq]; exact List.prefix_append out [k, n])
  have hdest_not_dir : ∀ k n : String, out ++ [k, n] ∉ fs.dirs := by
    intro k n hmem
    have h2 := hfreshD _ hmem (List.prefix_append out [k, n])
    have := congrArg List.length h2
    simp at this
  have hgs_mem : ∀ g ∈ groupByCat (selectFiles fs dir (resolveTypes ft)), ∀ e ∈ g.2,
      e ∈ fs.files ∧ e.1.dropLast = dir ∧ e.1 ≠ [] := by
    intro g hg e he
    have h1 := (mem_groupByCat hg e he).1
    exact ⟨(mem_selectFiles h1).1, (mem_selectFiles h1).2⟩
  have hkeysnd :
      ((groupByCat (selectFiles fs dir (resolveTypes ft))).map (fun g => g.1)).Nodup := by
    rw [groupByCat_keys]
    exact catKeys_nodup _
  have hK4 : ∀ g ∈ groupByCat (selectFiles fs dir (resolveTypes ft)), ∀ e ∈ g.2,
      fs.files.lookup e.1 = some e.2 ∧ e.1.dropLast = dir ∧ e.1 ≠ [] := by
    intro g hg e he
    obtain ⟨hmem, hdl, hne⟩ := hgs_mem g hg e he
    exact ⟨lookup_of_mem_nodup hmem hwf, hdl, hne⟩
  have hK6 : ∀ g ∈ groupByCat (selectFiles fs dir (resolveTypes ft)),
      ((g.2.map (fun e => lastName e.1)).Nodup) := by
    intro g hg
    have hsub : List.Sublist g.2 fs.files := by
      rw [groupByCat] at hg
      obtain ⟨k, _, rfl⟩ := List.mem_map.mp hg
      exact (List.filter_sublist _).trans
        ((List.filter_sublist _).trans (List.filter_sublist _))
    have hpath : (g.2.map (fun e => e.1)).Nodup := hwf.sublist (hsub.map _)
    have hnod : g.2.Nodup := hpath.of_map
    apply hnod.map_on
    intro x hx y hy hxy
    have hxm := hgs_mem g hg x hx
    have hym := hgs_mem g hg y hy
    have hx1 : x.1 = y.1 := by
      rw [path_concat hxm.2.1 hxm.2.2, path_concat hym.2.1 hym.2.2, hxy]
    exact List.inj_on_of_nodup_map hwf hxm.1 hym.1 hx1
  have hexact := processGroups_exact out dir
    (groupByCat (selectFiles fs dir (resolveTypes ft))) fs hout hkeysnd
    (fun g _ => houtk_ne_dir g.1)
    (fun g _ => ⟨houtk_not_dir_mem g.1, fun f hf => houtk_not_file g.1 f hf⟩)
    hK4
    (fun g hg e he =>
      ⟨fun f hf => hdest_not_file g.1 (lastName e.1) f hf,
       hdest_not_dir g.1 (lastName e.1)⟩)
    hK6
  have hres := organize_files_some_result fs _ dir out ft del hmkout hdirb hexact
  have hnewNotDel : ∀ x ∈ ((groupByCat (selectFiles fs dir (resolveTypes ft))).flatMap
      (fun g => g.2.map (entryOf out g.1))),
      delCond dir (resolveTypes ft) x.1 = false := by
    intro x hx
    obtain ⟨g, _, hxg⟩ := List.mem_flatMap.mp hx
    obtain ⟨e, _, rfl⟩ := List.mem_map.mp hxg
    simp [delCond, entryOf, destOf, dest_dropLast, houtk_ne_dir g.1]
  have hfilesfilter : ∀ p : (FPath × Nat) → Bool,
      (∀ x ∈ fs.files, p x = false) →
      (organize_files fs dir (some out) ft false del).1.files.filter p
        = (((groupByCat (selectFiles fs dir (resolveTypes ft))).flatMap
            (fun g => g.2.map (entryOf out g.1))).reverse ++ fs.files).filter p := by
    intro p hold
    rw [hres]
    cases del
    · rfl
    · show ((((groupByCat (selectFiles fs dir (resolveTypes ft))).flatMap
          (fun g => g.2.map (entryOf out g.1))).reverse ++ fs.files).filter
            (fun e => !delCond dir (resolveTypes ft) e.1)).filter p = _
      apply filter_of_imp
      intro x hx hpx
      rcases List.mem_append.mp hx with hnew | holdx
      · rw [List.mem_reverse] at hnew
        simp [hnewNotDel x hnew]
      · rw [hold x holdx] at hpx
        cases hpx
  have holdfile_k : ∀ (k : String), ∀ x ∈ fs.files,
      (x.1.dropLast == out ++ [k]) = false := by
    intro k x hx
    simp only [beq_eq_false_iff_ne, ne_eq]
    intro hdl
    rcases eq_or_ne x.1 [] with hnil | hne
    · rw [hnil] at hdl
      simp at hdl
    · apply hfreshF x hx
      have h1 : x.1.dropLast <+: x.1 :=
        ⟨[x.1.getLast hne], List.dropLast_concat_getLast hne⟩
      rw [hdl] at h1
      exact (List.prefix_append out [k]).trans h1
  have holdfile_pref : ∀ x ∈ fs.files, (out.isPrefixOf x.1) = false := by
    intro x hx
    exact Bool.eq_false_iff.mpr
      (fun h => hfreshF x hx (List.isPrefixOf_iff_prefix.mp h))
  have holddir : ∀ d ∈ fs.dirs, (d.dropLast == out) = false := by
    intro d hd
    simp only [beq_eq_false_iff_ne, ne_eq]
    intro hdl
    rcases eq_or_ne d [] with rfl | hdn
    · exact houtne (by simpa using hdl.symm)
    · have h1 : d.dropLast <+: d :=
        ⟨[d.getLast hdn], List.dropLast_concat_getLast hdn⟩
      rw [hdl] at h1
      have h2 := hfreshD d hd h1
      rw [h2] at hdl
      have h3 := congrArg List.length hdl
      rw [List.length_dropLast] at h3
      have hlp := List.length_pos.mpr houtne
      omega
  refine ⟨?_, ?_, ?_, ?_⟩
  · rw [hres]
    cases del <;> rfl
  · have hdirs_eq : (organize_files fs dir (some out) ft false del).1.dirs =
        ((groupByCat (selectFiles fs dir (resolveTypes ft))).map
          (fun g => out ++ [g.1])).reverse ++ fs.dirs := by
      rw [hres]
      cases del <;> rfl
    rw [hdirs_eq, List.filter_append,
      List.filter_eq_self.mpr ?ha, List.filter_eq_nil_iff.mpr ?hb, List.append_nil]
    case ha =>
      intro d hd
      rw [List.mem_reverse] at hd
      obtain ⟨g, _, rfl⟩ := List.mem_map.mp hd
      simp
    case hb =>
      intro d hd
      simp [holddir d hd]
    have hmapeq : (groupByCat (selectFiles fs dir (resolveTypes ft))).map
          (fun g => out ++ [g.1])
        = (catKeys (selectFiles fs dir (resolveTypes ft))).map (fun k => out ++ [k]) := by
      rw [groupByCat, List.map_map]
      rfl
    rw [hmapeq]
    exact List.reverse_perm _
  · intro k
    rw [hfilesfilter _ (holdfile_k k)]
    refine (List.Perm.filter _ ((List.reverse_perm _).append_right fs.files)).trans ?_
    rw [List.filter_append, flatMap_filter_key,
      List.filter_eq_nil_iff.mpr ?hc, List.append_nil]
    case hc =>
      intro a ha
      simp [holdfile_k k a ha]
    rw [show groupByCat (selectFiles fs dir (resolveTypes ft))
        = (catKeys (selectFiles fs dir (resolveTypes ft))).map
            (fun k2 => (k2, (selectFiles fs dir (resolveTypes ft)).filter
              (fun e => catOf e == k2))) from rfl,
      flatMap_keys_single out k (selectFiles fs dir (resolveTypes ft)) _
        (catKeys_nodup _)]
    by_cases hk : k ∈ catKeys (selectFiles fs dir (resolveTypes ft))
    · rw [if_pos hk]
    · rw [if_neg hk]
      have hempty : (selectFiles fs dir (resolveTypes ft)).filter
          (fun e => catOf e == k) = [] := by
        rw [List.filter_eq_nil_iff]
        intro e he hbe
        exact hk ((show catOf e = k by simpa using hbe) ▸ catOf_mem_catKeys he)
      rw [hempty]
      rfl
  · rw [hfilesfilter _ holdfile_pref]
    have hperm : List.Perm
        ((((groupByCat (selectFiles fs dir (resolveTypes ft))).flatMap
          (fun g => g.2.map (entryOf out g.1))).reverse ++ fs.files).filter
            (fun e => out.isPrefixOf e.1))
        ((groupByCat (selectFiles fs dir (resolveTypes ft))).flatMap
            (fun g => g.2.map (entryOf out g.1))) := by
      refine (List.Perm.filter _ ((List.reverse_perm _).append_right fs.files)).trans ?_
      rw [List.filter_append, List.filter_eq_self.mpr ?he,
        List.filter_eq_nil_iff.mpr ?hd, List.append_nil]
      case hd =>
        intro a ha
        simp [holdfile_pref a ha]
      case he =>
        intro a ha
        obtain ⟨g, _, hxg⟩ := List.mem_flatMap.mp ha
        obtain ⟨e, _, rfl⟩ := List.mem_map.mp hxg
        simp [entryOf, destOf, List.isPrefixOf_iff_prefix]
    rw [hperm.length_eq]
    rw [List.flatMap, List.length_flatten, List.map_map]
    rw [show ((fun l : List (FPath × Nat) => l.length) ∘
        (fun g : String × List (FPath × Nat) => g.2.map (entryOf out g.1)))
        = fun g : String × List (FPath × Nat) => g.2.length from by
      funext g
      simp]
    rw [groupByCat, List.map_map]
    rw [show ((fun g : String × List (FPath × Nat) => g.2.length) ∘
        (fun k => (k, (selectFiles fs dir (resolveTypes ft)).filter
          (fun e => catOf e == k))))
        = fun k => ((selectFiles fs dir (resolveTypes ft)).filter
          (fun e => catOf e == k)).length from rfl]
    exact sum_filter_lengths catOf _ _ (catKeys_nodup _)
      (fun x hx => catOf_mem_catKeys hx)

/-- Witness for the amended C8 at a concrete input. -/
theorem grouping_roundtrip_witness :
    (organize_files ⟨[["o"], ["d"]], [(["d", "x.svg"], 7)]⟩ ["d"] (some ["o"]) none
      false false).2 = none :=
  (grouping_roundtrip_amended ⟨[["o"], ["d"]], [(["d", "x.svg"], 7)]⟩ ["d"] ["o"] none false
    (by decide) (by decide) (by decide) (by decide) (by decide)
    (by decide) (by decide)).1

/-! ### Claim C7: ordering and decimal formatting lemmas -/

theorem lexLe_total : ∀ a b : List Char, lexLe a b = true ∨ lexLe b a = true
  | [], _ => Or.inl rfl
  | _ :: _, [] => Or.inr rfl
  | a :: as, b :: bs => by
    rcases Nat.lt_trichotomy a.toNat b.toNat with h | h | h
    · exact Or.inl (by rw [lexLe, if_pos h])
    · have h1 : ¬ a.toNat < b.toNat := by omega
      have h2 : ¬ b.toNat < a.toNat := by omega
      rcases lexLe_total as bs with hl | hl
      · exact Or.inl (by rw [lexLe, if_neg h1, if_neg h2]; exact hl)
      · exact Or.inr (by rw [lexLe, if_neg h2, if_neg h1]; exact hl)
    · exact Or.inr (by rw [lexLe, if_pos h])

theorem lexLe_trans : ∀ a b c : List Char,
    lexLe a b = true → lexLe b c = true → lexLe a c = true
  | [], _, _, _, _ => rfl
  | _ :: _, [], _, h1, _ => by
    rw [lexLe] at h1
    exact Bool.noConfusion h1
  | _ :: _, _ :: _, [], _, h2 => by
    rw [lexLe] at h2
    exact Bool.noConfusion h2
  | a :: as, b :: bs, c :: cs, h1, h2 => by
    rw [lexLe] at h1 h2 ⊢
    rcases Nat.lt_trichotomy a.toNat b.toNat with hab | hab | hab
    · rcases Nat.lt_trichotomy b.toNat c.toNat with hbc | hbc | hbc
      · rw [if_pos (by omega)]
      · rw [if_pos (by omega)]
      · rw [if_neg (by omega), if_pos hbc] at h2
        exact Bool.noConfusion h2
    · rw [if_neg (by omega), if_neg (by omega)] at h1
      rcases Nat.lt_trichotomy b.toNat c.toNat with hbc | hbc | hbc
      · rw [if_pos (by omega)]
      · rw [if_neg (by omega), if_neg (by omega)] at h2
        rw [if_neg (by omega), if_neg (by omega)]
        exact lexLe_trans as bs cs h1 h2
      · rw [if_neg (by omega), if_pos (by omega)] at h2
        exact Bool.noConfusion h2
    · rw [if_neg (by omega), if_pos hab] at h1
      exact Bool.noConfusion h1

instance : IsTotal String pyLe := ⟨fun a b => lexLe_total a.data b.data⟩

instance : IsTrans String pyLe := ⟨fun a b c => lexLe_trans a.data b.data c.data⟩

theorem pySorted_sorted (l : List String) : List.Sorted pyLe (pySorted l) :=
  List.sorted_insertionSort pyLe l

theorem pySorted_perm (l : List String) : List.Perm (pySorted l) l :=
  List.perm_insertionSort pyLe l

theorem decDigitChar_toNat {d : Nat} (h : d < 10) : (decDigitChar d).toNat = 48 + d := by
  interval_cases d <;> rfl

theorem decDigitChar_ne_zero {d : Nat} (h1 : 1 ≤ d) (h2 : d < 10) : decDigitChar d ≠ '0' := by
  interval_cases d <;> decide

theorem digitsVal_decReprRev : ∀ (fuel n : Nat), n ≤ fuel →
    digitsVal (decReprRev fuel n) = n
  | fuel, 0, _ => by cases fuel <;> rfl
  | 0, n + 1, h => by omega
  | fuel + 1, n + 1, _ => by
    rw [decReprRev, digitsVal, decDigitChar_toNat (Nat.mod_lt _ (by omega)),
      digitsVal_decReprRev fuel ((n + 1) / 10) (by
        have := Nat.div_lt_self (Nat.succ_pos n) (show 1 < 10 by omega)
        omega)]
    have := Nat.mod_add_div (n + 1) 10
    omega

theorem decRepr_inj : ∀ {m n : Nat}, decRepr m = decRepr n → m = n := by
  have hv : ∀ k : Nat, digitsVal ((decRepr k).reverse) = k := by
    intro k
    rcases Nat.eq_zero_or_pos k with rfl | hk
    · rfl
    · rw [decRepr, if_neg (by omega), List.reverse_reverse]
      exact digitsVal_decReprRev k k (le_refl k)
  intro m n h
  rw [← hv m, ← hv n, h]

theorem decReprRev_ne_nil : ∀ (fuel n : Nat), 1 ≤ n → n ≤ fuel → decReprRev fuel n ≠ []
  | fuel + 1, n + 1, _, _ => by
    rw [decReprRev]
    simp
  | 0, _ + 1, _, h => by omega
  | _, 0, h, _ => by omega

theorem decReprRev_getLast_ne_zero : ∀ (fuel n : Nat), 1 ≤ n → n ≤ fuel →
    ∀ c, (decReprRev fuel n).getLast? = some c → c ≠ '0'
  | 0, _, h1, h2, _, _ => by omega
  | _ + 1, 0, h1, _, _, _ => by omega
  | fuel + 1, n + 1, _, h2, c, hc => by
    rw [decReprRev] at hc
    by_cases hq : (n + 1) / 10 = 0
    · rw [hq, show decReprRev fuel 0 = [] from by cases fuel <;> rfl] at hc
      simp only [List.getLast?_singleton, Option.some.injEq] at hc
      have h10 : n + 1 < 10 := by omega
      rw [← hc, Nat.mod_eq_of_lt h10]
      exact decDigitChar_ne_zero (by omega) h10
    · have hq1 : 1 ≤ (n + 1) / 10 := by omega
      have hq2 : (n + 1) / 10 ≤ fuel := by
        have := Nat.div_lt_self (Nat.succ_pos n) (show 1 < 10 by omega)
        omega
      cases hl : decReprRev fuel ((n + 1) / 10) with
      | nil => exact absurd hl (decReprRev_ne_nil fuel _ hq1 hq2)
      | cons d ds =>
        rw [hl, List.getLast?_cons_cons] at hc
        exact decReprRev_getLast_ne_zero fuel ((n + 1) / 10) hq1 hq2 c (by rw [hl]; exact hc)

theorem decRepr_head_ne_zero {n : Nat} (h : 1 ≤ n) :
    ∀ c, (decRepr n).head? = some c → c ≠ '0' := by
  intro c hc
  rw [decRepr, if_neg (by omega), List.head?_reverse] at hc
  exact decReprRev_getLast_ne_zero n n h (le_refl n) c hc

theorem pad2_inj : ∀ {i j : Nat}, pad2 i = pad2 j → i = j := by
  intro i j h
  rw [pad2, pad2] at h
  split_ifs at h with hi hj hj
  · injection h with _ h2
    exact decRepr_inj h2
  · exfalso
    rcases Nat.eq_zero_or_pos j with rfl | hjpos
    · exact hj rfl
    · exact decRepr_head_ne_zero hjpos '0' (by rw [← h]; rfl) rfl
  · exfalso
    rcases Nat.eq_zero_or_pos i with rfl | hipos
    · exact hi rfl
    · exact decRepr_head_ne_zero hipos '0' (by rw [h]; rfl) rfl
  · exact decRepr_inj h

/-- Destination path written by the multi-file branch of `rename_sprites.main`
for the 1-based index `i`. -/
def fanDest (output : FPath) (proper : String) (i : Nat) : FPath :=
  output ++ [proper, proper ++ "_" ++ (⟨pad2 i⟩ : String) ++ ".svg"]

/-- The entries the multi-file branch writes: destination paths paired with
the contents looked up in `fls` at the source paths, indices counting up
from `i`. -/
def fanEntries (output folder : FPath) (proper : String)
    (fls : List (FPath × Nat)) : Nat → List String → List (FPath × Nat)
  | _, [] => []
  | i, n :: rest =>
    (fanDest output proper i, (fls.lookup (folder ++ [n])).getD 0)
      :: fanEntries output folder proper fls (i + 1) rest

/-- The `.svg`-named entries of a candidate folder (`svg_files` in the
source). -/
def folderSvgs (fs : FS) (cwd : FPath) (folderName : String) : List String :=
  (pyListdir fs (cwd ++ [folderName])).filter endsSvg

theorem fanDest_inj {output : FPath} {proper : String} {i j : Nat}
    (h : fanDest output proper i = fanDest output proper j) : i = j := by
  have h2 := destOf_name_inj h
  have h3 := congrArg String.data h2
  simp only [String.data_append] at h3
  exact pad2_inj (List.append_cancel_left (List.append_cancel_right h3))

theorem fanDest_dropLast (output : FPath) (proper : String) (i : Nat) :
    (fanDest output proper i).dropLast = output ++ [proper] :=
  dest_dropLast output proper _

theorem src_ne_fanDest {output folder : FPath} {proper : String}
    (hfol : folder ≠ output ++ [proper]) (n : String) (j : Nat) :
    folder ++ [n] ≠ fanDest output proper j := by
  intro h
  apply hfol
  have h2 := congrArg List.dropLast h
  rw [List.dropLast_concat, fanDest_dropLast] at h2
  exact h2

theorem fanEntries_paths (output folder : FPath) (proper : String)
    (fls : List (FPath × Nat)) :
    ∀ (i : Nat) (l : List String),
      (fanEntries output folder proper fls i l).map (fun e => e.1)
        = (List.range' i l.length).map (fanDest output proper)
  | _, [] => rfl
  | i, n :: rest => by
    rw [fanEntries, List.map_cons, List.length_cons, List.range'_succ, List.map_cons,
      fanEntries_paths output folder proper fls (i + 1) rest]

theorem fanEntries_congr (output folder : FPath) (proper : String)
    {fls1 fls2 : List (FPath × Nat)} :
    ∀ (i : Nat) (l : List String),
      (∀ n ∈ l, fls1.lookup (folder ++ [n]) = fls2.lookup (folder ++ [n])) →
      fanEntries output folder proper fls1 i l = fanEntries output folder proper fls2 i l
  | _, [], _ => rfl
  | i, n :: rest, h => by
    rw [fanEntries, fanEntries, h n (List.mem_cons_self _ _),
      fanEntries_congr output folder proper (i + 1) rest
        (fun m hm => h m (List.mem_cons_of_mem _ hm))]

theorem fanCopy_multi_exact (output folder : FPath) (proper : String) (num : Nat)
    (hnum : ¬ num = 1) (hfol : folder ≠ output ++ [proper]) :
    ∀ (l : List String) (i : Nat) (fs : FS),
      (output ++ [proper]) ∈ fs.dirs →
      (∀ n ∈ l, ∃ c, fs.files.lookup (folder ++ [n]) = some c) →
      (∀ j, i ≤ j → (∀ f ∈ fs.files, f.1 ≠ fanDest output proper j) ∧
        fanDest output proper j ∉ fs.dirs) →
      fanCopy output folder proper num fs i l =
        (⟨fs.dirs, (fanEntries output folder proper fs.files i l).reverse ++ fs.files⟩,
          (List.range' i l.length).map (fanDest output proper), none)
  | [], i, fs, _, _, _ => rfl
  | n :: rest, i, fs, hdir, hsrc, hfresh => by
    obtain ⟨c, hc⟩ := hsrc n (List.mem_cons_self _ _)
    have hfi := hfresh i (le_refl i)
    rw [fanCopy]
    dsimp only
    rw [if_neg hnum]
    rw [show output ++ [proper, proper ++ "_" ++ (⟨pad2 i⟩ : String) ++ ".svg"]
      = fanDest output proper i from rfl]
    have hroot : fs.isDirOrRoot (output ++ [proper]) = true := by
      simp [FS.isDirOrRoot, List.contains, hdir]
    have hcp : copy2 fs (folder ++ [n]) (fanDest output proper i) =
        .ok ⟨fs.dirs, (fanDest output proper i, c) :: fs.files⟩ :=
      copy2_fresh_ok hc (by simp [fanDest]) hfi.2 (src_ne_fanDest hfol n i)
        (by rw [fanDest_dropLast]; exact hroot) hfi.1
    rw [hcp]
    dsimp only
    rw [fanCopy_multi_exact output folder proper num hnum hfol rest (i + 1)
      ⟨fs.dirs, (fanDest output proper i, c) :: fs.files⟩ hdir ?h2 ?h3]
    · dsimp only
      rw [fanEntries_congr output folder proper (i + 1) rest
        (fun m _ => lookup_cons_ne (src_ne_fanDest hfol m i)),
        fanEntries, hc, List.length_cons, List.range'_succ, List.map_cons]
      simp [List.reverse_cons, List.append_assoc]
    case h2 =>
      intro m hm
      obtain ⟨c2, hc2⟩ := hsrc m (List.mem_cons_of_mem _ hm)
      exact ⟨c2, by
        show ((fanDest output proper i, c) :: fs.files).lookup (folder ++ [m]) = some c2
        rw [lookup_cons_ne (src_ne_fanDest hfol m i)]
        exact hc2⟩
    case h3 =>
      intro j hj
      have hfj := hfresh j (by omega)
      refine ⟨?_, hfj.2⟩
      intro f hf
      rcases List.mem_cons.mp hf with rfl | hf2
      · show fanDest output proper i ≠ fanDest output proper j
        intro heq
        have := fanDest_inj heq
        omega
      · exact hfj.1 f hf2

theorem processFolder_zero (output cwd : FPath) (folderName : String) (fs : FS)
    (h : folderSvgs fs cwd folderName = []) :
    processFolder output cwd folderName fs = (fs, [], none) := by
  have h2 : (pyListdir fs (cwd ++ [folderName])).filter endsSvg = [] := h
  rw [processFolder]
  rw [h2]
  rfl

theorem fanCopy_single (output folder : FPath) (proper : String) (num : Nat)
    (hnum : num = 1) (n : String) (c : Nat) (fs : FS) (i : Nat)
    (hc : fs.files.lookup (folder ++ [n]) = some c)
    (hsd : output ++ [proper ++ ".svg"] ∉ fs.dirs)
    (hdir1 : fs.isDirOrRoot (output ++ [proper ++ ".svg"]).dropLast = true)
    (hsf : ∀ f ∈ fs.files, f.1 ≠ output ++ [proper ++ ".svg"]) :
    fanCopy output folder proper num fs i [n] =
      (⟨fs.dirs, (output ++ [proper ++ ".svg"], c) :: fs.files⟩,
        [output ++ [proper ++ ".svg"]], none) := by
  subst hnum
  have hsne : folder ++ [n] ≠ output ++ [proper ++ ".svg"] := by
    intro he
    exact hsf (folder ++ [n], c) (lookup_mem hc) he
  have hcp : copy2 fs (folder ++ [n]) (output ++ [proper ++ ".svg"]) =
      .ok ⟨fs.dirs, (output ++ [proper ++ ".svg"], c) :: fs.files⟩ :=
    copy2_fresh_ok hc (by simp) hsd hsne hdir1 hsf
  rw [fanCopy]
  dsimp only
  rw [if_pos rfl, hcp]
  rfl

theorem processFolder_single (output cwd : FPath) (folderName : String) (fs : FS)
    (n : String) (c : Nat)
    (h : folderSvgs fs cwd folderName = [n])
    (hc : fs.files.lookup ((cwd ++ [folderName]) ++ [n]) = some c)
    (hdir1 : output ∈ fs.dirs)
    (hsd : output ++ [extract_proper_name folderName ++ ".svg"] ∉ fs.dirs)
    (hsf : ∀ f ∈ fs.files, f.1 ≠ output ++ [extract_proper_name folderName ++ ".svg"]) :
    processFolder output cwd folderName fs =
      (⟨fs.dirs,
        (output ++ [extract_proper_name folderName ++ ".svg"], c) :: fs.files⟩,
        [output ++ [extract_proper_name folderName ++ ".svg"]], none) := by
  have h2 : (pyListdir fs (cwd ++ [folderName])).filter endsSvg = [n] := h
  rw [processFolder]
  rw [h2]
  rw [if_neg (show ¬ 1 < List.length [n] by simp)]
  dsimp only
  rw [show pySorted [n] = [n] from rfl]
  rw [fanCopy_single output (cwd ++ [folderName]) (extract_proper_name folderName)
    (List.length [n]) rfl n c fs 1 hc hsd ?hr hsf]
  case hr =>
    rw [List.dropLast_concat]
    simp [FS.isDirOrRoot, List.contains, hdir1]

theorem processFolder_multi (output cwd : FPath) (folderName : String) (fs : FS)
    (hlen : 1 < (folderSvgs fs cwd folderName).length)
    (hdir1 : output ∈ fs.dirs)
    (hfol : cwd ++ [folderName] ≠ output ++ [extract_proper_name folderName])
    (hpd : output ++ [extract_proper_name folderName] ∉ fs.dirs)
    (hpf : ∀ f ∈ fs.files, f.1 ≠ output ++ [extract_proper_name folderName])
    (hsrc : ∀ n ∈ folderSvgs fs cwd folderName,
      ∃ c, fs.files.lookup ((cwd ++ [folderName]) ++ [n]) = some c)
    (hfreshD : ∀ d ∈ fs.dirs, d.dropLast ≠ output ++ [extract_proper_name folderName])
    (hfreshF : ∀ f ∈ fs.files, f.1.dropLast ≠ output ++ [extract_proper_name folderName]) :
    processFolder output cwd folderName fs =
      (⟨(output ++ [extract_proper_name folderName]) :: fs.dirs,
        (fanEntries output (cwd ++ [folderName]) (extract_proper_name folderName)
          fs.files 1 (pySorted (folderSvgs fs cwd folderName))).reverse ++ fs.files⟩,
        (List.range' 1 (folderSvgs fs cwd folderName).length).map
          (fanDest output (extract_proper_name folderName)), none) := by
  have hlen2 : 1 < ((pyListdir fs (cwd ++ [folderName])).filter endsSvg).length := hlen
  rw [processFolder]
  rw [if_pos hlen2]
  have hmk : mkdirExistOk fs (output ++ [extract_proper_name folderName]) =
      .ok ⟨(output ++ [extract_proper_name folderName]) :: fs.dirs, fs.files⟩ := by
    rw [mkdirExistOk]
    rw [if_neg ?m1, if_neg ?m2, if_neg ?m3, if_pos ?m4]
    case m1 =>
      intro hcon
      exact hpd (by simpa [List.contains] using hcon)
    case m2 =>
      intro hcon
      rw [List.any_eq_true] at hcon
      obtain ⟨f, hf, hbeq⟩ := hcon
      exact hpf f hf (by simpa using hbeq)
    case m3 => simp
    case m4 =>
      rw [List.dropLast_concat]
      simp [FS.isDirOrRoot, List.contains, hdir1]
  rw [hmk]
  dsimp only
  rw [fanCopy_multi_exact output (cwd ++ [folderName]) (extract_proper_name folderName)
    ((pyListdir fs (cwd ++ [folderName])).filter endsSvg).length (by omega) hfol
    (pySorted ((pyListdir fs (cwd ++ [folderName])).filter endsSvg)) 1
    ⟨(output ++ [extract_proper_name folderName]) :: fs.dirs, fs.files⟩
    (List.mem_cons_self _ _) ?h2 ?h3]
  · rw [(pySorted_perm ((pyListdir fs (cwd ++ [folderName])).filter endsSvg)).length_eq]
    rfl
  case h2 =>
    intro m hm
    exact hsrc m ((pySorted_perm _).mem_iff.mp hm)
  case h3 =>
    intro j _
    constructor
    · intro f hf heq
      apply hfreshF f hf
      rw [heq, fanDest_dropLast]
    · intro hmem
      rcases List.mem_cons.mp hmem with heq | hmem2
      · exact dest_ne_catDir output (extract_proper_name folderName) _
          (extract_proper_name folderName) heq
      · apply hfreshD _ hmem2
        rw [fanDest_dropLast]

/-- C7, amended: for a candidate folder whose `.svg`-named entries are all
regular files, when the output directory exists, the source folder is not the
output subfolder, and nothing pre-exists at any destination (no entry at
`output/<ProperName>` or under it, none at `output/<ProperName>.svg`): with
zero matching files the folder is skipped with no change and no error; with
exactly one, exactly one output file `<ProperName>.svg` is written at the
output root; with `M > 1`, the subfolder `output/<ProperName>` is created and
afterwards holds exactly `M` files, whose names are `<ProperName>_NN.svg` for
the 1-based two-digit indices `1..M`, assigned in lexicographically sorted
order of the original filenames. -/
theorem fanout_amended (fs : FS) (output cwd : FPath) (folderName : String)
    (hdir1 : output ∈ fs.dirs)
    (hfol : cwd ++ [folderName] ≠ output ++ [extract_proper_name folderName])
    (hsrc : ∀ n ∈ folderSvgs fs cwd folderName,
      ∃ c, fs.files.lookup ((cwd ++ [folderName]) ++ [n]) = some c)
    (hpd : output ++ [extract_proper_name folderName] ∉ fs.dirs)
    (hpf : ∀ f ∈ fs.files, f.1 ≠ output ++ [extract_proper_name folderName])
    (hfreshD : ∀ d ∈ fs.dirs, d.dropLast ≠ output ++ [extract_proper_name folderName])
    (hfreshF : ∀ f ∈ fs.files, f.1.dropLast ≠ output ++ [extract_proper_name folderName])
    (hsd : output ++ [extract_proper_name folderName ++ ".svg"] ∉ fs.dirs)
    (hsf : ∀ f ∈ fs.files, f.1 ≠ output ++ [extract_proper_name folderName ++ ".svg"]) :
    ((folderSvgs fs cwd folderName).length = 0 →
      processFolder output cwd folderName fs = (fs, [], none)) ∧
    ((folderSvgs fs cwd folderName).length = 1 →
      ∃ n c, folderSvgs fs cwd folderName = [n] ∧
        fs.files.lookup ((cwd ++ [folderName]) ++ [n]) = some c ∧
        processFolder output cwd folderName fs =
          (⟨fs.dirs, (output ++ [extract_proper_name folderName ++ ".svg"], c)
              :: fs.files⟩,
            [output ++ [extract_proper_name folderName ++ ".svg"]], none)) ∧
    (1 < (folderSvgs fs cwd folderName).length →
      (processFolder output cwd folderName fs).2.2 = none ∧
      (processFolder output cwd folderName fs).1.dirs =
        (output ++ [extract_proper_name folderName]) :: fs.dirs ∧
      (processFolder output cwd folderName fs).2.1 =
        (List.range' 1 (folderSvgs fs cwd folderName).length).map
          (fanDest output (extract_proper_name folderName)) ∧
      ((processFolder output cwd folderName fs).1.files.filter
          (fun e => e.1.dropLast == output ++ [extract_proper_name folderName]))
        = (fanEntries output (cwd ++ [folderName]) (extract_proper_name folderName)
            fs.files 1 (pySorted (folderSvgs fs cwd folderName))).reverse ∧
      ((processFolder output cwd folderName fs).1.files.filter
          (fun e => e.1.dropLast == output ++ [extract_proper_name folderName])).length
        = (folderSvgs fs cwd folderName).length ∧
      ((processFolder output cwd folderName fs).1.files.filter
          (fun e => e.1.dropLast == output ++ [extract_proper_name folderName])).map
            (fun e => e.1)
        = ((List.range' 1 (folderSvgs fs cwd folderName).length).map
            (fanDest output (extract_proper_name folderName))).reverse) := by
  refine ⟨?_, ?_, ?_⟩
  · intro h0
    exact processFolder_zero output cwd folderName fs (List.length_eq_zero.mp h0)
  · intro h1
    cases hsv : folderSvgs fs cwd folderName with
    | nil =>
      rw [hsv] at h1
      exact absurd h1 (by decide)
    | cons n rest =>
      rw [hsv] at h1
      have hrest : rest = [] := by
        rw [List.length_cons] at h1
        exact List.length_eq_zero.mp (by omega)
      subst hrest
      obtain ⟨c, hc⟩ := hsrc n (by rw [hsv]; exact List.mem_cons_self _ _)
      exact ⟨n, c, rfl, hc,
        processFolder_single output cwd folderName fs n c hsv hc hdir1 hsd hsf⟩
  · intro hM
    have hPF := processFolder_multi output cwd folderName fs hM hdir1 hfol hpd hpf hsrc
      hfreshD hfreshF
    rw [hPF]
    dsimp only
    have hfq : (((fanEntries output (cwd ++ [folderName]) (extract_proper_name folderName)
        fs.files 1 (pySorted (folderSvgs fs cwd folderName))).reverse ++ fs.files).filter
          (fun e => e.1.dropLast == output ++ [extract_proper_name folderName]))
        = (fanEntries output (cwd ++ [folderName]) (extract_proper_name folderName)
            fs.files 1 (pySorted (folderSvgs fs cwd folderName))).reverse := by
      rw [List.filter_append, List.filter_eq_self.mpr ?hall,
        List.filter_eq_nil_iff.mpr ?hnil, List.append_nil]
      case hnil =>
        intro f hf
        simpa using hfreshF f hf
      case hall =>
        intro e he
        rw [List.mem_reverse] at he
        have hm := List.mem_map_of_mem (fun e => e.1) he
        rw [fanEntries_paths] at hm
        obtain ⟨k, _, hk⟩ := List.mem_map.mp hm
        have hk2 : fanDest output (extract_proper_name folderName) k = e.1 := hk
        show (e.1.dropLast == output ++ [extract_proper_name folderName]) = true
        rw [← hk2, fanDest_dropLast]
        simp
    have hlenE : (fanEntries output (cwd ++ [folderName]) (extract_proper_name folderName)
        fs.files 1 (pySorted (folderSvgs fs cwd folderName))).length
        = (folderSvgs fs cwd folderName).length := by
      have h4 := congrArg List.length (fanEntries_paths output (cwd ++ [folderName])
        (extract_proper_name folderName) fs.files 1 (pySorted (folderSvgs fs cwd folderName)))
      rw [List.length_map, List.length_map, List.length_range'] at h4
      rw [h4, (pySorted_perm _).length_eq]
    refine ⟨rfl, rfl, rfl, hfq, ?_, ?_⟩
    · rw [hfq, List.length_reverse, hlenE]
    · rw [hfq, List.map_reverse, fanEntries_paths, (pySorted_perm _).length_eq]

/-- C7, witness: on a concrete two-file folder `a_X`, the amended theorem's
multi-file branch applies and the subfolder `sprites_done/X` ends up holding
exactly two files. -/
theorem fanout_witness :
    (folderSvgs ⟨[["sprites_done"], ["a_X"]],
        [(["a_X", "1.svg"], 3), (["a_X", "2.svg"], 4)]⟩ [] "a_X").length = 2 ∧
    ((processFolder ["sprites_done"] [] "a_X"
        ⟨[["sprites_done"], ["a_X"]],
          [(["a_X", "1.svg"], 3), (["a_X", "2.svg"], 4)]⟩).1.files.filter
        (fun e => e.1.dropLast ==
          ["sprites_done"] ++ [extract_proper_name "a_X"])).length = 2 := by
  have hs : ∀ n ∈ folderSvgs (⟨[["sprites_done"], ["a_X"]],
      [(["a_X", "1.svg"], 3), (["a_X", "2.svg"], 4)]⟩ : FS) [] "a_X",
      ∃ c, (⟨[["sprites_done"], ["a_X"]],
        [(["a_X", "1.svg"], 3), (["a_X", "2.svg"], 4)]⟩ : FS).files.lookup
          (([] ++ ["a_X"]) ++ [n]) = some c := by
    intro n hn
    have he : folderSvgs (⟨[["sprites_done"], ["a_X"]],
        [(["a_X", "1.svg"], 3), (["a_X", "2.svg"], 4)]⟩ : FS) [] "a_X"
        = ["1.svg", "2.svg"] := by decide
    rw [he] at hn
    rcases List.mem_cons.mp hn with rfl | hn
    · exact ⟨3, by decide⟩
    rcases List.mem_cons.mp hn with rfl | hn
    · exact ⟨4, by decide⟩
    · cases hn
  refine ⟨by decide, ?_⟩
  exact ((fanout_amended
      ⟨[["sprites_done"], ["a_X"]], [(["a_X", "1.svg"], 3), (["a_X", "2.svg"], 4)]⟩
      ["sprites_done"] [] "a_X" (by decide) (by decide) hs (by decide) (by decide)
      (by decide) (by decide) (by decide) (by decide)).2.2
        (by decide)).2.2.2.2.1.trans (by decide)

end SwfOrg
